import Mathlib

/-!
Verification development for a TypeScript dependency-injection library.

The development shallowly embeds the library's core:
* `resolveProviders` (src/utils.ts): deep resolution of provider objects
  inside arbitrary value graphs, with identity-keyed memoisation and cycle
  breaking.  JavaScript object identity is modelled by an explicit heap
  (`List JObj`) addressed by `Nat`; values (`JVal`) are primitives or heap
  references.  The JS recursion is modelled with explicit fuel, and a
  sufficiency theorem shows the fuel never runs out on well-formed heaps.
* the provider hierarchy (src/providers.ts): `BaseProvider` override stacks,
  `Factory.provide` (including `Extend` argument merging), `Singleton.provide`
  with its memoised slot, and `Delegate.provide`.
* the injection wiring engine (src/inject.ts): the insertion-ordered set of
  wired containers, decoration sites, the one-time method wrapping performed
  by `wire`, the call-time argument injection, and `findProviderByToken`.
-/

namespace DI

/-- JavaScript values: primitives, function references, and object
references into an explicit heap. -/
inductive JVal where
  | undef : JVal
  | jsNull : JVal
  | bool : Bool → JVal
  | num : Int → JVal
  | str : String → JVal
  | fn : Nat → JVal
  | ref : Nat → JVal
deriving DecidableEq, Repr

/-- Prototype classification used by `resolveProviders`: a plain object has
`Object.prototype` or a `null` prototype; anything else is a class instance. -/
inductive Proto where
  | plain : Proto
  | nullProto : Proto
  | cls : Proto
deriving DecidableEq, Repr

/-- Heap objects.  `provider` models an object carrying the hidden
`PROVIDER_SYMBOL` marker set to `true`; its `provide()` method is modelled by
the fixed value it returns.  `extend` models an `Extend` wrapper instance
(`EXTEND_SYMBOL` marker) holding its `defaults` record.  `record` models any
other object with string-keyed own enumerable fields, tagged by its prototype
(a plain record with a `provide`-shaped member is simply a record whose
fields contain a function value under the key `provide`, or a class instance
whose method lives on the prototype: neither carries the provider marker). -/
inductive JObj where
  | provider (result : JVal) : JObj
  | extend (defaults : List (String × JVal)) : JObj
  | record (proto : Proto) (fields : List (String × JVal)) : JObj
  | arr (elems : List JVal) : JObj
  | mapObj (entries : List (JVal × JVal)) : JObj
  | setObj (elems : List JVal) : JObj
  | date : JObj
  | regexp : JObj
deriving DecidableEq, Repr

/-- `isProvider` from src/utils.ts: an object is a provider exactly when it
carries the `PROVIDER_SYMBOL` marker set to `true`; merely exposing a
`provide`-shaped method does not qualify. -/
def isProviderObj : JObj → Bool
  | .provider _ => true
  | _ => false

/-- State threaded through `resolveProviders`: the heap (append-only for
pre-existing addresses), the `seen` WeakSet, the `resolved` WeakMap
(input address to replacement value), and a log of the heap addresses of
providers whose `provide()` was invoked (model instrumentation used to state
"never invokes" properties). -/
structure RSt where
  heap : List JObj
  seen : List Nat
  resolved : List (Nat × JVal)
  log : List Nat
deriving DecidableEq, Repr

/-- Heap read (JS object dereference). -/
def hget : List JObj → Nat → Option JObj
  | [], _ => none
  | o :: _, 0 => some o
  | _ :: t, n + 1 => hget t n

/-- Heap write at an existing address. -/
def hset : List JObj → Nat → JObj → List JObj
  | [], _, _ => []
  | _ :: t, 0, o => o :: t
  | x :: t, n + 1, o => x :: hset t n o

/-- Association-list lookup (models `WeakMap.get` and JS key lookup). -/
def lk {α β : Type} [DecidableEq α] : List (α × β) → α → Option β
  | [], _ => none
  | (k, v) :: r, a => if k = a then some v else lk r a

/-- Allocate a fresh object at the end of the heap, returning its address. -/
def allocObj (st : RSt) (o : JObj) : Nat × RSt :=
  (st.heap.length, { st with heap := st.heap ++ [o] })

/-- Overwrite the (already allocated) object at address `a`. -/
def setObjAt (st : RSt) (a : Nat) (o : JObj) : RSt :=
  { st with heap := hset st.heap a o }

/-- Sequential `Set.add` of resolved members: a JavaScript `Set` drops a
member that is already present (first occurrence kept). -/
def setAdd (l : List JVal) (v : JVal) : List JVal :=
  if v ∈ l then l else l ++ [v]

mutual

/-- Shallow embedding of `resolveProviders` (src/utils.ts).  The branch
order follows the source exactly: null/undefined, primitives, functions,
the provider check (before the memo and cycle checks), the `resolved`
WeakMap memo, the `seen` cycle guard, `seen.add`, then Date, RegExp,
Array, Map, Set, and finally the plain-object test on the prototype.
Recursion is paid for with explicit fuel; `none` means fuel ran out
(shown impossible for well-formed heaps by `resolveVal_suff`). -/
def resolveVal : Nat → RSt → JVal → Option (JVal × RSt)
  | 0, _, _ => none
  | _ + 1, st, .undef => some (.undef, st)
  | _ + 1, st, .jsNull => some (.jsNull, st)
  | _ + 1, st, .bool b => some (.bool b, st)
  | _ + 1, st, .num n => some (.num n, st)
  | _ + 1, st, .str s => some (.str s, st)
  | _ + 1, st, .fn f => some (.fn f, st)
  | fuel + 1, st, .ref a =>
    match hget st.heap a with
    | none => some (.ref a, st)  -- dangling reference: unreachable on well-formed heaps
    | some o =>
      if isProviderObj o then
        -- isProvider(value) → return value.provide()  (invocation logged)
        match o with
        | .provider r => some (r, { st with log := st.log ++ [a] })
        | _ => some (.ref a, st)  -- unreachable: isProviderObj o = true forces .provider
      else match lk st.resolved a with
      | some r => some (r, st)  -- resolved.has(value) → memoised replacement
      | none =>
        if a ∈ st.seen then
          some (.ref a, st)  -- seen.has(value) → return as-is, breaking the cycle
        else
          let st1 : RSt := { st with seen := a :: st.seen }  -- seen.add(value)
          match o with
          | .date => some (.ref a, st1)
          | .regexp => some (.ref a, st1)
          | .arr elems =>
            let (a2, st2) := allocObj st1 (.arr [])
            let st3 : RSt := { st2 with resolved := (a, JVal.ref a2) :: st2.resolved }
            match resolveList fuel st3 elems with
            | none => none
            | some (elems2, st4) =>
              let st5 := setObjAt st4 a2 (.arr elems2)
              some (.ref a2, { st5 with seen := st5.seen.erase a })
          | .mapObj entries =>
            let (a2, st2) := allocObj st1 (.mapObj [])
            let st3 : RSt := { st2 with resolved := (a, JVal.ref a2) :: st2.resolved }
            match resolveEntries fuel st3 entries with
            | none => none
            | some (entries2, st4) =>
              let st5 := setObjAt st4 a2 (.mapObj entries2)
              some (.ref a2, { st5 with seen := st5.seen.erase a })
          | .setObj elems =>
            let (a2, st2) := allocObj st1 (.setObj [])
            let st3 : RSt := { st2 with resolved := (a, JVal.ref a2) :: st2.resolved }
            match resolveList fuel st3 elems with
            | none => none
            | some (elems2, st4) =>
              let st5 := setObjAt st4 a2 (.setObj (elems2.foldl setAdd []))
              some (.ref a2, { st5 with seen := st5.seen.erase a })
          | .record proto fields =>
            if proto = .plain ∨ proto = .nullProto then
              let (a2, st2) := allocObj st1 (.record .plain [])
              let st3 : RSt := { st2 with resolved := (a, JVal.ref a2) :: st2.resolved }
              match resolveFields fuel st3 fields with
              | none => none
              | some (fields2, st4) =>
                let st5 := setObjAt st4 a2 (.record .plain fields2)
                some (.ref a2, { st5 with seen := st5.seen.erase a })
            else
              some (.ref a, st1)  -- class instance: passthrough, untraversed
          | .extend _ => some (.ref a, st1)  -- Extend is a class instance: passthrough
          | .provider _ => some (.ref a, st1)  -- unreachable: handled above
termination_by fuel _ _ => (fuel, 0)

/-- Resolve a list of values left to right (array elements / set members). -/
def resolveList : Nat → RSt → List JVal → Option (List JVal × RSt)
  | _, st, [] => some ([], st)
  | fuel, st, v :: vs =>
    match resolveVal fuel st v with
    | none => none
    | some (r, st1) =>
      match resolveList fuel st1 vs with
      | none => none
      | some (rs, st2) => some (r :: rs, st2)
termination_by fuel _ l => (fuel, l.length + 1)

/-- Resolve record fields: keys kept, values resolved left to right. -/
def resolveFields : Nat → RSt → List (String × JVal) → Option (List (String × JVal) × RSt)
  | _, st, [] => some ([], st)
  | fuel, st, (k, v) :: kvs =>
    match resolveVal fuel st v with
    | none => none
    | some (r, st1) =>
      match resolveFields fuel st1 kvs with
      | none => none
      | some (rs, st2) => some ((k, r) :: rs, st2)
termination_by fuel _ l => (fuel, l.length + 1)

/-- Resolve Map entries: keys kept as-is, values resolved left to right. -/
def resolveEntries : Nat → RSt → List (JVal × JVal) → Option (List (JVal × JVal) × RSt)
  | _, st, [] => some ([], st)
  | fuel, st, (k, v) :: kvs =>
    match resolveVal fuel st v with
    | none => none
    | some (r, st1) =>
      match resolveEntries fuel st1 kvs with
      | none => none
      | some (rs, st2) => some ((k, r) :: rs, st2)
termination_by fuel _ l => (fuel, l.length + 1)

end

/-! ### Basic heap and lookup lemmas -/

theorem hget_append_lt {h h2 : List JObj} {a : Nat} (ha : a < h.length) :
    hget (h ++ h2) a = hget h a := by
  induction h generalizing a with
  | nil => simp at ha
  | cons x t ih =>
    cases a with
    | zero => rfl
    | succ n =>
      simp only [List.cons_append, hget]
      exact ih (by simpa using ha)

theorem hget_append_self (h : List JObj) (o : JObj) :
    hget (h ++ [o]) h.length = some o := by
  induction h with
  | nil => rfl
  | cons x t ih => simpa [hget] using ih

theorem hget_lt_length {h : List JObj} {a : Nat} {o : JObj} (hg : hget h a = some o) :
    a < h.length := by
  induction h generalizing a with
  | nil => simp [hget] at hg
  | cons x t ih =>
    cases a with
    | zero => simp
    | succ n =>
      simp only [hget] at hg
      simpa using ih hg

theorem hset_length (h : List JObj) (a : Nat) (o : JObj) :
    (hset h a o).length = h.length := by
  induction h generalizing a with
  | nil => rfl
  | cons x t ih =>
    cases a with
    | zero => rfl
    | succ n => simpa [hset] using ih n

theorem hget_hset_ne (h : List JObj) (a b : Nat) (o : JObj) (hne : b ≠ a) :
    hget (hset h a o) b = hget h b := by
  induction h generalizing a b with
  | nil => rfl
  | cons x t ih =>
    cases a with
    | zero =>
      cases b with
      | zero => exact absurd rfl hne
      | succ m => rfl
    | succ n =>
      cases b with
      | zero => rfl
      | succ m => simpa [hset, hget] using ih n m (fun hc => hne (by simp [hc]))

theorem hget_hset_self {h : List JObj} {a : Nat} (o : JObj) (ha : a < h.length) :
    hget (hset h a o) a = some o := by
  induction h generalizing a with
  | nil => simp at ha
  | cons x t ih =>
    cases a with
    | zero => rfl
    | succ n => simpa [hset, hget] using ih (by simpa using ha)

theorem lk_cons {α β : Type} [DecidableEq α] (k : α) (v : β) (l : List (α × β)) (a : α) :
    lk ((k, v) :: l) a = if k = a then some v else lk l a := rfl

/-! ### State-evolution invariants of the resolver -/

/-- Facts that every resolver step preserves: the heap only grows, objects at
pre-existing addresses are untouched, memoised replacements persist, and an
address once seen or memoised stays seen-or-memoised. -/
def StEvol (st st2 : RSt) : Prop :=
  st.heap.length ≤ st2.heap.length ∧
  (∀ i, i < st.heap.length → hget st2.heap i = hget st.heap i) ∧
  (∀ a w, lk st.resolved a = some w → lk st2.resolved a = some w) ∧
  (∀ a, (a ∈ st.seen ∨ (lk st.resolved a).isSome) →
        (a ∈ st2.seen ∨ (lk st2.resolved a).isSome))

theorem StEvol.rfl (st : RSt) : StEvol st st :=
  ⟨le_refl _, fun _ _ => Eq.refl _, fun _ _ h => h, fun _ h => h⟩

theorem StEvol.trans {s1 s2 s3 : RSt} (h12 : StEvol s1 s2) (h23 : StEvol s2 s3) :
    StEvol s1 s3 := by
  obtain ⟨l12, g12, r12, u12⟩ := h12
  obtain ⟨l23, g23, r23, u23⟩ := h23
  refine ⟨le_trans l12 l23, ?_, ?_, ?_⟩
  · intro i hi
    rw [g23 i (lt_of_lt_of_le hi l12), g12 i hi]
  · intro a w hw
    exact r23 a w (r12 a w hw)
  · intro a ha
    exact u23 a (u12 a ha)

/-- The composite state change performed by a container branch of the
resolver (seen.add, placeholder allocation, memo registration, recursive
resolution of the members, final write at the placeholder address,
seen.delete) satisfies `StEvol`. -/
theorem StEvol_container {st st4 : RSt} {a : Nat} {o0 o2 : JObj}
    (hlk : lk st.resolved a = none)
    (h3 : StEvol
      { st with
        heap := st.heap ++ [o0],
        seen := a :: st.seen,
        resolved := (a, JVal.ref st.heap.length) :: st.resolved } st4) :
    StEvol st { setObjAt st4 st.heap.length o2 with seen := st4.seen.erase a } := by
  obtain ⟨l3, g3, r3, u3⟩ := h3
  simp only [List.length_append, List.length_cons, List.length_nil] at l3
  refine ⟨?_, ?_, ?_, ?_⟩
  · simp only [setObjAt, hset_length]
    omega
  · intro i hi
    have hne : i ≠ st.heap.length := by omega
    simp only [setObjAt]
    rw [hget_hset_ne _ _ _ _ hne]
    have hg := g3 i (by simp; omega)
    rw [hg, hget_append_lt hi]
  · intro b w hw
    have hne : a ≠ b := fun hc => by
      subst hc
      rw [hlk] at hw
      exact Option.noConfusion hw
    have hb : lk ((a, JVal.ref st.heap.length) :: st.resolved) b = some w := by
      rw [lk_cons]
      simp [hne, hw]
    exact r3 b w hb
  · intro b hb
    by_cases hba : b = a
    · subst hba
      right
      have hmem : lk ((b, JVal.ref st.heap.length) :: st.resolved) b =
          some (JVal.ref st.heap.length) := by
        simp [lk_cons]
      have hr := r3 b _ hmem
      simp [setObjAt, hr]
    · have hb3 : b ∈ (a :: st.seen) ∨
          (lk ((a, JVal.ref st.heap.length) :: st.resolved) b).isSome := by
        rcases hb with hb | hb
        · left; exact List.mem_cons_of_mem _ hb
        · right
          rw [lk_cons]
          have hne : a ≠ b := fun hc => hba hc.symm
          simpa [hne] using hb
      rcases u3 b hb3 with h | h
      · left
        exact (List.mem_erase_of_ne hba).mpr h
      · right; simpa [setObjAt] using h

theorem StEvol_seenCons (st : RSt) (a : Nat) :
    StEvol st { st with seen := a :: st.seen } := by
  refine ⟨le_refl _, fun _ _ => Eq.refl _, fun _ _ h => h, ?_⟩
  intro b hb
  rcases hb with hb | hb
  · left; exact List.mem_cons_of_mem _ hb
  · right; exact hb

theorem StEvol_log (st : RSt) (l : List Nat) :
    StEvol st { st with log := l } :=
  ⟨le_refl _, fun _ _ => Eq.refl _, fun _ _ h => h, fun _ h => h⟩

theorem resolveList_evol_of {f : Nat}
    (hV : ∀ st v r st2, resolveVal f st v = some (r, st2) → StEvol st st2) :
    ∀ l st r st2, resolveList f st l = some (r, st2) → StEvol st st2 := by
  intro l
  induction l with
  | nil =>
    intro st r st2 h
    simp only [resolveList, Option.some.injEq, Prod.mk.injEq] at h
    obtain ⟨_, h2⟩ := h
    subst h2
    exact StEvol.rfl st
  | cons v vs ih =>
    intro st r st2 h
    simp only [resolveList] at h
    split at h
    · exact Option.noConfusion h
    · rename_i p heq1
      obtain ⟨r1, st1⟩ := p
      split at h
      · exact Option.noConfusion h
      · rename_i q heq2
        obtain ⟨rs, stq⟩ := q
        simp only [Option.some.injEq, Prod.mk.injEq] at h
        obtain ⟨_, h2⟩ := h
        subst h2
        exact StEvol.trans (hV _ _ _ _ heq1) (ih _ _ _ heq2)

theorem resolveFields_evol_of {f : Nat}
    (hV : ∀ st v r st2, resolveVal f st v = some (r, st2) → StEvol st st2) :
    ∀ l st r st2, resolveFields f st l = some (r, st2) → StEvol st st2 := by
  intro l
  induction l with
  | nil =>
    intro st r st2 h
    simp only [resolveFields, Option.some.injEq, Prod.mk.injEq] at h
    obtain ⟨_, h2⟩ := h
    subst h2
    exact StEvol.rfl st
  | cons kv kvs ih =>
    obtain ⟨k, v⟩ := kv
    intro st r st2 h
    simp only [resolveFields] at h
    split at h
    · exact Option.noConfusion h
    · rename_i p heq1
      obtain ⟨r1, st1⟩ := p
      split at h
      · exact Option.noConfusion h
      · rename_i q heq2
        obtain ⟨rs, stq⟩ := q
        simp only [Option.some.injEq, Prod.mk.injEq] at h
        obtain ⟨_, h2⟩ := h
        subst h2
        exact StEvol.trans (hV _ _ _ _ heq1) (ih _ _ _ heq2)

theorem resolveEntries_evol_of {f : Nat}
    (hV : ∀ st v r st2, resolveVal f st v = some (r, st2) → StEvol st st2) :
    ∀ l st r st2, resolveEntries f st l = some (r, st2) → StEvol st st2 := by
  intro l
  induction l with
  | nil =>
    intro st r st2 h
    simp only [resolveEntries, Option.some.injEq, Prod.mk.injEq] at h
    obtain ⟨_, h2⟩ := h
    subst h2
    exact StEvol.rfl st
  | cons kv kvs ih =>
    obtain ⟨k, v⟩ := kv
    intro st r st2 h
    simp only [resolveEntries] at h
    split at h
    · exact Option.noConfusion h
    · rename_i p heq1
      obtain ⟨r1, st1⟩ := p
      split at h
      · exact Option.noConfusion h
      · rename_i q heq2
        obtain ⟨rs, stq⟩ := q
        simp only [Option.some.injEq, Prod.mk.injEq] at h
        obtain ⟨_, h2⟩ := h
        subst h2
        exact StEvol.trans (hV _ _ _ _ heq1) (ih _ _ _ heq2)

/-- Every successful resolver run satisfies the `StEvol` state-evolution
invariants. -/
theorem resolveVal_evol :
    ∀ f st v r st2, resolveVal f st v = some (r, st2) → StEvol st st2 := by
  intro f
  induction f with
  | zero =>
    intro st v r st2 h
    simp [resolveVal] at h
  | succ n ih =>
    have hL := resolveList_evol_of (f := n) ih
    have hF := resolveFields_evol_of (f := n) ih
    have hE := resolveEntries_evol_of (f := n) ih
    intro st v r st2 h
    cases v with
    | undef =>
      simp only [resolveVal, Option.some.injEq, Prod.mk.injEq] at h
      obtain ⟨_, h2⟩ := h; subst h2; exact StEvol.rfl st
    | jsNull =>
      simp only [resolveVal, Option.some.injEq, Prod.mk.injEq] at h
      obtain ⟨_, h2⟩ := h; subst h2; exact StEvol.rfl st
    | bool b =>
      simp only [resolveVal, Option.some.injEq, Prod.mk.injEq] at h
      obtain ⟨_, h2⟩ := h; subst h2; exact StEvol.rfl st
    | num m =>
      simp only [resolveVal, Option.some.injEq, Prod.mk.injEq] at h
      obtain ⟨_, h2⟩ := h; subst h2; exact StEvol.rfl st
    | str s =>
      simp only [resolveVal, Option.some.injEq, Prod.mk.injEq] at h
      obtain ⟨_, h2⟩ := h; subst h2; exact StEvol.rfl st
    | fn g =>
      simp only [resolveVal, Option.some.injEq, Prod.mk.injEq] at h
      obtain ⟨_, h2⟩ := h; subst h2; exact StEvol.rfl st
    | ref a =>
      simp only [resolveVal] at h
      split at h
      · -- dangling reference
        simp only [Option.some.injEq, Prod.mk.injEq] at h
        obtain ⟨_, h2⟩ := h; subst h2; exact StEvol.rfl st
      · rename_i o hgo
        split at h
        · -- provider branch
          split at h
          · simp only [Option.some.injEq, Prod.mk.injEq] at h
            obtain ⟨_, h2⟩ := h; subst h2; exact StEvol_log st _
          · simp only [Option.some.injEq, Prod.mk.injEq] at h
            obtain ⟨_, h2⟩ := h; subst h2; exact StEvol.rfl st
        · split at h
          · -- memo hit
            simp only [Option.some.injEq, Prod.mk.injEq] at h
            obtain ⟨_, h2⟩ := h; subst h2; exact StEvol.rfl st
          · rename_i hlk
            split at h
            · -- seen hit
              simp only [Option.some.injEq, Prod.mk.injEq] at h
              obtain ⟨_, h2⟩ := h; subst h2; exact StEvol.rfl st
            · -- not seen: per-object branches
              split at h
              · -- date
                simp only [Option.some.injEq, Prod.mk.injEq] at h
                obtain ⟨_, h2⟩ := h; subst h2; exact StEvol_seenCons st a
              · -- regexp
                simp only [Option.some.injEq, Prod.mk.injEq] at h
                obtain ⟨_, h2⟩ := h; subst h2; exact StEvol_seenCons st a
              · -- array
                rename_i elems
                simp only [allocObj] at h
                split at h
                · exact Option.noConfusion h
                · rename_i p heq
                  obtain ⟨elems2, st4⟩ := p
                  simp only [Option.some.injEq, Prod.mk.injEq] at h
                  obtain ⟨_, h2⟩ := h; subst h2
                  exact StEvol_container hlk (hL _ _ _ _ heq)
              · -- map
                rename_i entries
                simp only [allocObj] at h
                split at h
                · exact Option.noConfusion h
                · rename_i p heq
                  obtain ⟨entries2, st4⟩ := p
                  simp only [Option.some.injEq, Prod.mk.injEq] at h
                  obtain ⟨_, h2⟩ := h; subst h2
                  exact StEvol_container hlk (hE _ _ _ _ heq)
              · -- set
                rename_i elems
                simp only [allocObj] at h
                split at h
                · exact Option.noConfusion h
                · rename_i p heq
                  obtain ⟨elems2, st4⟩ := p
                  simp only [Option.some.injEq, Prod.mk.injEq] at h
                  obtain ⟨_, h2⟩ := h; subst h2
                  exact StEvol_container hlk (hL _ _ _ _ heq)
              · -- record
                rename_i proto fields
                split at h
                · simp only [allocObj] at h
                  split at h
                  · exact Option.noConfusion h
                  · rename_i p heq
                    obtain ⟨fields2, st4⟩ := p
                    simp only [Option.some.injEq, Prod.mk.injEq] at h
                    obtain ⟨_, h2⟩ := h; subst h2
                    exact StEvol_container hlk (hF _ _ _ _ heq)
                · simp only [Option.some.injEq, Prod.mk.injEq] at h
                  obtain ⟨_, h2⟩ := h; subst h2; exact StEvol_seenCons st a
              · -- extend
                simp only [Option.some.injEq, Prod.mk.injEq] at h
                obtain ⟨_, h2⟩ := h; subst h2; exact StEvol_seenCons st a
              · -- provider (unreachable duplicate)
                simp only [Option.some.injEq, Prod.mk.injEq] at h
                obtain ⟨_, h2⟩ := h; subst h2; exact StEvol_seenCons st a

/-! ### Heap well-formedness (all stored references point into the heap) -/

/-- The values stored inside an object. -/
def objValsList : JObj → List JVal
  | .provider r => [r]
  | .extend defaults => defaults.map Prod.snd
  | .record _ fields => fields.map Prod.snd
  | .arr elems => elems
  | .mapObj entries => entries.map Prod.fst ++ entries.map Prod.snd
  | .setObj elems => elems
  | .date => []
  | .regexp => []

/-- A value is closed under bound `n` when any reference it carries points
below `n`. -/
def valClosedB (n : Nat) : JVal → Bool
  | .ref a => decide (a < n)
  | _ => true

def objClosedB (n : Nat) (o : JObj) : Bool :=
  (objValsList o).all (valClosedB n)

/-- Every object of the heap only references addresses inside the heap. -/
def heapClosedB (h : List JObj) : Bool :=
  h.all (objClosedB h.length)

theorem valClosedB_mono {n m : Nat} {v : JVal} (hnm : n ≤ m)
    (hv : valClosedB n v = true) : valClosedB m v = true := by
  cases v <;> simp_all [valClosedB]
  omega

theorem objClosedB_mono {n m : Nat} {o : JObj} (hnm : n ≤ m)
    (ho : objClosedB n o = true) : objClosedB m o = true := by
  simp only [objClosedB, List.all_eq_true] at ho ⊢
  exact fun v hv => valClosedB_mono hnm (ho v hv)

theorem hget_mem {h : List JObj} {a : Nat} {o : JObj} (hg : hget h a = some o) :
    o ∈ h := by
  induction h generalizing a with
  | nil => simp [hget] at hg
  | cons x t ih =>
    cases a with
    | zero =>
      simp only [hget, Option.some.injEq] at hg
      subst hg; exact List.mem_cons_self x t
    | succ n => exact List.mem_cons_of_mem _ (ih hg)

theorem mem_hset {h : List JObj} {a : Nat} {o x : JObj} (hx : x ∈ hset h a o) :
    x = o ∨ x ∈ h := by
  induction h generalizing a with
  | nil => simp [hset] at hx
  | cons y t ih =>
    cases a with
    | zero =>
      rcases List.mem_cons.mp hx with hx | hx
      · left; exact hx
      · right; exact List.mem_cons_of_mem _ hx
    | succ n =>
      rcases List.mem_cons.mp hx with hx | hx
      · right; exact hx ▸ List.mem_cons_self y t
      · rcases ih hx with hx | hx
        · left; exact hx
        · right; exact List.mem_cons_of_mem _ hx

theorem mem_foldl_setAdd {l : List JVal} {acc : List JVal} {x : JVal}
    (hx : x ∈ l.foldl setAdd acc) : x ∈ acc ∨ x ∈ l := by
  induction l generalizing acc with
  | nil => left; exact hx
  | cons v vs ih =>
    rcases ih hx with hx | hx
    · unfold setAdd at hx
      split at hx
      · left; exact hx
      · rcases List.mem_append.mp hx with hx | hx
        · left; exact hx
        · right; simp only [List.mem_singleton] at hx
          exact hx ▸ List.mem_cons_self v vs
    · right; exact List.mem_cons_of_mem _ hx

/-- Well-formedness of the resolver state: heap closed and every memoised
replacement closed. -/
def stOK (st : RSt) : Prop :=
  heapClosedB st.heap = true ∧
  ∀ p ∈ st.resolved, valClosedB st.heap.length p.2 = true

theorem hget_isSome_of_lt {h : List JObj} {a : Nat} (ha : a < h.length) :
    (hget h a).isSome := by
  induction h generalizing a with
  | nil => simp at ha
  | cons x t ih =>
    cases a with
    | zero => simp [hget]
    | succ n => simpa [hget] using ih (by simpa using ha)

theorem lk_mem {α β : Type} [DecidableEq α] {l : List (α × β)} {a : α} {w : β}
    (h : lk l a = some w) : (a, w) ∈ l := by
  induction l with
  | nil => simp [lk] at h
  | cons p t ih =>
    obtain ⟨k, v⟩ := p
    rw [lk_cons] at h
    split at h
    · rename_i hk
      simp only [Option.some.injEq] at h
      subst hk; subst h
      exact List.mem_cons_self _ _
    · exact List.mem_cons_of_mem _ (ih h)

theorem resolveList_evol (f : Nat) :
    ∀ l st r st2, resolveList f st l = some (r, st2) → StEvol st st2 :=
  resolveList_evol_of (resolveVal_evol f)

theorem resolveFields_evol (f : Nat) :
    ∀ l st r st2, resolveFields f st l = some (r, st2) → StEvol st st2 :=
  resolveFields_evol_of (resolveVal_evol f)

theorem resolveEntries_evol (f : Nat) :
    ∀ l st r st2, resolveEntries f st l = some (r, st2) → StEvol st st2 :=
  resolveEntries_evol_of (resolveVal_evol f)

/-- Registering the intermediate placeholder state keeps the state
well-formed. -/
theorem stOK_mid {st : RSt} (a : Nat) (o0 : JObj) (hok : stOK st)
    (ho0 : objClosedB (st.heap.length + 1) o0 = true) :
    stOK { st with
           heap := st.heap ++ [o0],
           seen := a :: st.seen,
           resolved := (a, JVal.ref st.heap.length) :: st.resolved } := by
  obtain ⟨hheap, hres⟩ := hok
  constructor
  · simp only [heapClosedB, List.all_eq_true, List.length_append, List.length_cons,
      List.length_nil] at hheap ⊢
    intro o ho
    rcases List.mem_append.mp ho with ho | ho
    · exact objClosedB_mono (by omega) (hheap o ho)
    · simp only [List.mem_singleton] at ho
      subst ho
      exact objClosedB_mono (by omega) ho0
  · intro p hp
    simp only [List.length_append, List.length_cons, List.length_nil]
    rcases List.mem_cons.mp hp with hp | hp
    · subst hp
      simp [valClosedB]
    · exact valClosedB_mono (by omega) (hres p hp)

/-- Writing the finished container object back at its placeholder address
keeps the state well-formed, and the returned reference is closed. -/
theorem stOK_container {st st4 : RSt} (a : Nat) {o2 : JObj}
    (h4 : stOK st4) (hlen : st.heap.length < st4.heap.length)
    (ho2 : objClosedB st4.heap.length o2 = true) :
    stOK { setObjAt st4 st.heap.length o2 with seen := st4.seen.erase a } ∧
    valClosedB ({ setObjAt st4 st.heap.length o2 with
                  seen := st4.seen.erase a } : RSt).heap.length
      (JVal.ref st.heap.length) = true := by
  obtain ⟨hheap, hres⟩ := h4
  refine ⟨⟨?_, ?_⟩, ?_⟩
  · simp only [heapClosedB, List.all_eq_true, setObjAt, hset_length] at hheap ⊢
    intro o ho
    rcases mem_hset ho with ho | ho
    · subst ho; exact ho2
    · exact hheap o ho
  · intro p hp
    simp only [setObjAt, hset_length]
    exact hres p hp
  · simp only [setObjAt, hset_length, valClosedB]
    simpa using hlen

theorem resolveList_closed_of {f : Nat}
    (hV : ∀ st v r st2, resolveVal f st v = some (r, st2) → stOK st →
      valClosedB st.heap.length v = true →
      stOK st2 ∧ valClosedB st2.heap.length r = true) :
    ∀ l st r st2, resolveList f st l = some (r, st2) → stOK st →
      (∀ v ∈ l, valClosedB st.heap.length v = true) →
      stOK st2 ∧ ∀ v ∈ r, valClosedB st2.heap.length v = true := by
  intro l
  induction l with
  | nil =>
    intro st r st2 h hok _
    simp only [resolveList, Option.some.injEq, Prod.mk.injEq] at h
    obtain ⟨h1, h2⟩ := h
    subst h1; subst h2
    exact ⟨hok, by simp⟩
  | cons v vs ih =>
    intro st r st2 h hok hcl
    simp only [resolveList] at h
    split at h
    · exact Option.noConfusion h
    · rename_i p heq1
      obtain ⟨r1, st1⟩ := p
      split at h
      · exact Option.noConfusion h
      · rename_i q heq2
        obtain ⟨rs, stq⟩ := q
        simp only [Option.some.injEq, Prod.mk.injEq] at h
        obtain ⟨h1, h2⟩ := h
        subst h1; subst h2
        obtain ⟨hok1, hr1⟩ := hV _ _ _ _ heq1 hok (hcl v (List.mem_cons_self _ _))
        have hlen1 := (resolveVal_evol f _ _ _ _ heq1).1
        obtain ⟨hok2, hr2⟩ := ih _ _ _ heq2 hok1
          (fun w hw => valClosedB_mono hlen1 (hcl w (List.mem_cons_of_mem _ hw)))
        have hlen2 := (resolveList_evol f _ _ _ _ heq2).1
        refine ⟨hok2, ?_⟩
        intro w hw
        rcases List.mem_cons.mp hw with hw | hw
        · subst hw; exact valClosedB_mono hlen2 hr1
        · exact hr2 w hw

theorem resolveFields_closed_of {f : Nat}
    (hV : ∀ st v r st2, resolveVal f st v = some (r, st2) → stOK st →
      valClosedB st.heap.length v = true →
      stOK st2 ∧ valClosedB st2.heap.length r = true) :
    ∀ l st r st2, resolveFields f st l = some (r, st2) → stOK st →
      (∀ p ∈ l, valClosedB st.heap.length p.2 = true) →
      stOK st2 ∧ ∀ p ∈ r, valClosedB st2.heap.length p.2 = true := by
  intro l
  induction l with
  | nil =>
    intro st r st2 h hok _
    simp only [resolveFields, Option.some.injEq, Prod.mk.injEq] at h
    obtain ⟨h1, h2⟩ := h
    subst h1; subst h2
    exact ⟨hok, by simp⟩
  | cons kv kvs ih =>
    obtain ⟨k, v⟩ := kv
    intro st r st2 h hok hcl
    simp only [resolveFields] at h
    split at h
    · exact Option.noConfusion h
    · rename_i p heq1
      obtain ⟨r1, st1⟩ := p
      split at h
      · exact Option.noConfusion h
      · rename_i q heq2
        obtain ⟨rs, stq⟩ := q
        simp only [Option.some.injEq, Prod.mk.injEq] at h
        obtain ⟨h1, h2⟩ := h
        subst h1; subst h2
        obtain ⟨hok1, hr1⟩ := hV _ _ _ _ heq1 hok (hcl (k, v) (List.mem_cons_self _ _))
        have hlen1 := (resolveVal_evol f _ _ _ _ heq1).1
        obtain ⟨hok2, hr2⟩ := ih _ _ _ heq2 hok1
          (fun w hw => valClosedB_mono hlen1 (hcl w (List.mem_cons_of_mem _ hw)))
        have hlen2 := (resolveFields_evol f _ _ _ _ heq2).1
        refine ⟨hok2, ?_⟩
        intro w hw
        rcases List.mem_cons.mp hw with hw | hw
        · subst hw; exact valClosedB_mono hlen2 hr1
        · exact hr2 w hw

theorem resolveEntries_closed_of {f : Nat}
    (hV : ∀ st v r st2, resolveVal f st v = some (r, st2) → stOK st →
      valClosedB st.heap.length v = true →
      stOK st2 ∧ valClosedB st2.heap.length r = true) :
    ∀ l st r st2, resolveEntries f st l = some (r, st2) → stOK st →
      (∀ p ∈ l, valClosedB st.heap.length p.1 = true ∧
        valClosedB st.heap.length p.2 = true) →
      stOK st2 ∧ ∀ p ∈ r, valClosedB st2.heap.length p.1 = true ∧
        valClosedB st2.heap.length p.2 = true := by
  intro l
  induction l with
  | nil =>
    intro st r st2 h hok _
    simp only [resolveEntries, Option.some.injEq, Prod.mk.injEq] at h
    obtain ⟨h1, h2⟩ := h
    subst h1; subst h2
    exact ⟨hok, by simp⟩
  | cons kv kvs ih =>
    obtain ⟨k, v⟩ := kv
    intro st r st2 h hok hcl
    simp only [resolveEntries] at h
    split at h
    · exact Option.noConfusion h
    · rename_i p heq1
      obtain ⟨r1, st1⟩ := p
      split at h
      · exact Option.noConfusion h
      · rename_i q heq2
        obtain ⟨rs, stq⟩ := q
        simp only [Option.some.injEq, Prod.mk.injEq] at h
        obtain ⟨h1, h2⟩ := h
        subst h1; subst h2
        obtain ⟨hok1, hr1⟩ := hV _ _ _ _ heq1 hok
          (hcl (k, v) (List.mem_cons_self _ _)).2
        have hlen1 := (resolveVal_evol f _ _ _ _ heq1).1
        obtain ⟨hok2, hr2⟩ := ih _ _ _ heq2 hok1
          (fun w hw => ⟨valClosedB_mono hlen1 (hcl w (List.mem_cons_of_mem _ hw)).1,
            valClosedB_mono hlen1 (hcl w (List.mem_cons_of_mem _ hw)).2⟩)
        have hlen2 := (resolveEntries_evol f _ _ _ _ heq2).1
        refine ⟨hok2, ?_⟩
        intro w hw
        rcases List.mem_cons.mp hw with hw | hw
        · subst hw
          exact ⟨valClosedB_mono (le_trans hlen1 hlen2)
            (hcl (k, v) (List.mem_cons_self _ _)).1, valClosedB_mono hlen2 hr1⟩
        · exact hr2 w hw

/-- A successful resolver run started in a well-formed state with a closed
input produces a well-formed state and a closed result. -/
theorem resolveVal_closed :
    ∀ f st v r st2, resolveVal f st v = some (r, st2) → stOK st →
      valClosedB st.heap.length v = true →
      stOK st2 ∧ valClosedB st2.heap.length r = true := by
  intro f
  induction f with
  | zero =>
    intro st v r st2 h _ _
    simp [resolveVal] at h
  | succ n ih =>
    have hL := resolveList_closed_of (f := n) ih
    have hF := resolveFields_closed_of (f := n) ih
    have hE := resolveEntries_closed_of (f := n) ih
    intro st v r st2 h hok hv
    cases v with
    | undef =>
      simp only [resolveVal, Option.some.injEq, Prod.mk.injEq] at h
      obtain ⟨h1, h2⟩ := h; subst h1; subst h2; exact ⟨hok, rfl⟩
    | jsNull =>
      simp only [resolveVal, Option.some.injEq, Prod.mk.injEq] at h
      obtain ⟨h1, h2⟩ := h; subst h1; subst h2; exact ⟨hok, rfl⟩
    | bool b =>
      simp only [resolveVal, Option.some.injEq, Prod.mk.injEq] at h
      obtain ⟨h1, h2⟩ := h; subst h1; subst h2; exact ⟨hok, rfl⟩
    | num m =>
      simp only [resolveVal, Option.some.injEq, Prod.mk.injEq] at h
      obtain ⟨h1, h2⟩ := h; subst h1; subst h2; exact ⟨hok, rfl⟩
    | str s =>
      simp only [resolveVal, Option.some.injEq, Prod.mk.injEq] at h
      obtain ⟨h1, h2⟩ := h; subst h1; subst h2; exact ⟨hok, rfl⟩
    | fn g =>
      simp only [resolveVal, Option.some.injEq, Prod.mk.injEq] at h
      obtain ⟨h1, h2⟩ := h; subst h1; subst h2; exact ⟨hok, rfl⟩
    | ref a =>
      have ha : a < st.heap.length := by simpa [valClosedB] using hv
      simp only [resolveVal] at h
      split at h
      · simp only [Option.some.injEq, Prod.mk.injEq] at h
        obtain ⟨h1, h2⟩ := h; subst h1; subst h2; exact ⟨hok, hv⟩
      · rename_i o hgo
        have hocl : objClosedB st.heap.length o = true := by
          have hh := hok.1
          simp only [heapClosedB, List.all_eq_true] at hh
          exact hh o (hget_mem hgo)
        split at h
        · split at h
          · rename_i r0
            simp only [Option.some.injEq, Prod.mk.injEq] at h
            obtain ⟨h1, h2⟩ := h; subst h1; subst h2
            refine ⟨⟨hok.1, hok.2⟩, ?_⟩
            simpa [objClosedB, objValsList] using hocl
          · simp only [Option.some.injEq, Prod.mk.injEq] at h
            obtain ⟨h1, h2⟩ := h; subst h1; subst h2; exact ⟨hok, hv⟩
        · split at h
          · rename_i r0 hlkm
            simp only [Option.some.injEq, Prod.mk.injEq] at h
            obtain ⟨h1, h2⟩ := h; subst h1; subst h2
            exact ⟨hok, hok.2 _ (lk_mem hlkm)⟩
          · rename_i hlk
            split at h
            · simp only [Option.some.injEq, Prod.mk.injEq] at h
              obtain ⟨h1, h2⟩ := h; subst h1; subst h2; exact ⟨hok, hv⟩
            · split at h
              · simp only [Option.some.injEq, Prod.mk.injEq] at h
                obtain ⟨h1, h2⟩ := h; subst h1; subst h2
                exact ⟨⟨hok.1, hok.2⟩, hv⟩
              · simp only [Option.some.injEq, Prod.mk.injEq] at h
                obtain ⟨h1, h2⟩ := h; subst h1; subst h2
                exact ⟨⟨hok.1, hok.2⟩, hv⟩
              · -- array
                rename_i elems hnp1
                simp only [allocObj] at h
                split at h
                · exact Option.noConfusion h
                · rename_i heq
                  simp only [Option.some.injEq, Prod.mk.injEq] at h
                  obtain ⟨h1, h2⟩ := h; subst h1; subst h2
                  have hok3 := @stOK_mid st a (JObj.arr []) hok
                    (by simp [objClosedB, objValsList])
                  have hcl3 : ∀ w ∈ elems,
                      valClosedB (st.heap.length + 1) w = true := by
                    intro w hw
                    have hb : valClosedB st.heap.length w = true := by
                      simp only [objClosedB, objValsList, List.all_eq_true] at hocl
                      exact hocl w hw
                    exact valClosedB_mono (by omega) hb
                  obtain ⟨hok4, hr4⟩ := hL _ _ _ _ heq hok3 (by
                    simpa [List.length_append] using hcl3)
                  refine stOK_container a hok4 ?_ ?_
                  · have hh : (st.heap ++ [JObj.arr []]).length ≤ _ :=
                      (resolveList_evol n _ _ _ _ heq).1
                    simp only [List.length_append, List.length_singleton] at hh
                    omega
                  · simpa [objClosedB, objValsList, List.all_eq_true] using hr4
              · -- map
                rename_i entries hnp1
                simp only [allocObj] at h
                split at h
                · exact Option.noConfusion h
                · rename_i heq
                  simp only [Option.some.injEq, Prod.mk.injEq] at h
                  obtain ⟨h1, h2⟩ := h; subst h1; subst h2
                  have hok3 := @stOK_mid st a (JObj.mapObj []) hok
                    (by simp [objClosedB, objValsList])
                  have hcl3 : ∀ w ∈ entries,
                      valClosedB (st.heap.length + 1) w.1 = true ∧
                      valClosedB (st.heap.length + 1) w.2 = true := by
                    intro w hw
                    simp only [objClosedB, objValsList, List.all_eq_true,
                      List.mem_append, List.mem_map] at hocl
                    exact ⟨valClosedB_mono (by omega) (hocl _ (Or.inl ⟨w, hw, rfl⟩)),
                      valClosedB_mono (by omega) (hocl _ (Or.inr ⟨w, hw, rfl⟩))⟩
                  obtain ⟨hok4, hr4⟩ := hE _ _ _ _ heq hok3 (by
                    simpa [List.length_append] using hcl3)
                  refine stOK_container a hok4 ?_ ?_
                  · have hh : (st.heap ++ [JObj.mapObj []]).length ≤ _ :=
                      (resolveEntries_evol n _ _ _ _ heq).1
                    simp only [List.length_append, List.length_singleton] at hh
                    omega
                  · simp only [objClosedB, objValsList, List.all_eq_true,
                      List.mem_append, List.mem_map]
                    rintro w (⟨q, hq, hqw⟩ | ⟨q, hq, hqw⟩)
                    · exact hqw ▸ (hr4 q hq).1
                    · exact hqw ▸ (hr4 q hq).2
              · -- set
                rename_i elems hnp1
                simp only [allocObj] at h
                split at h
                · exact Option.noConfusion h
                · rename_i heq
                  simp only [Option.some.injEq, Prod.mk.injEq] at h
                  obtain ⟨h1, h2⟩ := h; subst h1; subst h2
                  have hok3 := @stOK_mid st a (JObj.setObj []) hok
                    (by simp [objClosedB, objValsList])
                  have hcl3 : ∀ w ∈ elems,
                      valClosedB (st.heap.length + 1) w = true := by
                    intro w hw
                    have hb : valClosedB st.heap.length w = true := by
                      simp only [objClosedB, objValsList, List.all_eq_true] at hocl
                      exact hocl w hw
                    exact valClosedB_mono (by omega) hb
                  obtain ⟨hok4, hr4⟩ := hL _ _ _ _ heq hok3 (by
                    simpa [List.length_append] using hcl3)
                  refine stOK_container a hok4 ?_ ?_
                  · have hh : (st.heap ++ [JObj.setObj []]).length ≤ _ :=
                      (resolveList_evol n _ _ _ _ heq).1
                    simp only [List.length_append, List.length_singleton] at hh
                    omega
                  · simp only [objClosedB, objValsList, List.all_eq_true]
                    intro w hw
                    rcases mem_foldl_setAdd hw with hw | hw
                    · simp at hw
                    · exact hr4 w hw
              · -- record
                rename_i proto fields hnp1
                split at h
                · simp only [allocObj] at h
                  split at h
                  · exact Option.noConfusion h
                  · rename_i heq
                    simp only [Option.some.injEq, Prod.mk.injEq] at h
                    obtain ⟨h1, h2⟩ := h; subst h1; subst h2
                    have hok3 := @stOK_mid st a (JObj.record Proto.plain []) hok
                      (by simp [objClosedB, objValsList])
                    have hcl3 : ∀ w ∈ fields,
                        valClosedB (st.heap.length + 1) w.2 = true := by
                      intro w hw
                      have hb : valClosedB st.heap.length w.2 = true := by
                        simp only [objClosedB, objValsList, List.all_eq_true,
                          List.mem_map] at hocl
                        exact hocl _ ⟨w, hw, rfl⟩
                      exact valClosedB_mono (by omega) hb
                    obtain ⟨hok4, hr4⟩ := hF _ _ _ _ heq hok3 (by
                      simpa [List.length_append] using hcl3)
                    refine stOK_container a hok4 ?_ ?_
                    · have hh : (st.heap ++ [JObj.record Proto.plain []]).length ≤ _ :=
                        (resolveFields_evol n _ _ _ _ heq).1
                      simp only [List.length_append, List.length_singleton] at hh
                      omega
                    · simp only [objClosedB, objValsList, List.all_eq_true, List.mem_map]
                      rintro w ⟨q, hq, hqw⟩
                      exact hqw ▸ hr4 q hq
                · simp only [Option.some.injEq, Prod.mk.injEq] at h
                  obtain ⟨h1, h2⟩ := h; subst h1; subst h2
                  exact ⟨⟨hok.1, hok.2⟩, hv⟩
              · -- extend
                simp only [Option.some.injEq, Prod.mk.injEq] at h
                obtain ⟨h1, h2⟩ := h; subst h1; subst h2
                exact ⟨⟨hok.1, hok.2⟩, hv⟩
              · -- provider (unreachable duplicate)
                simp only [Option.some.injEq, Prod.mk.injEq] at h
                obtain ⟨h1, h2⟩ := h; subst h1; subst h2
                exact ⟨⟨hok.1, hok.2⟩, hv⟩

/-! ### Fuel sufficiency: the resolver terminates on well-formed heaps -/

/-- The first `n0` heap entries exist and reference only addresses below
`n0`.  This property is stable under resolver steps because pre-existing
heap entries are never modified. -/
def okPrefix (st : RSt) (n0 : Nat) : Prop :=
  n0 ≤ st.heap.length ∧
  ∀ a o, a < n0 → hget st.heap a = some o → objClosedB n0 o = true

theorem okPrefix_evol {st st2 : RSt} {n0 : Nat} (hok : okPrefix st n0)
    (hev : StEvol st st2) : okPrefix st2 n0 := by
  obtain ⟨hlen, hcl⟩ := hok
  refine ⟨le_trans hlen hev.1, ?_⟩
  intro a o han hgo
  rw [hev.2.1 a (lt_of_lt_of_le han hlen)] at hgo
  exact hcl a o han hgo

theorem okPrefix_mid {st : RSt} {n0 : Nat} (a : Nat) (o0 : JObj) (w : JVal)
    (hok : okPrefix st n0) :
    okPrefix { st with
               heap := st.heap ++ [o0],
               seen := a :: st.seen,
               resolved := (a, w) :: st.resolved } n0 := by
  obtain ⟨hlen, hcl⟩ := hok
  constructor
  · simp only [List.length_append, List.length_singleton]
    omega
  · intro b o hbn hgo
    rw [hget_append_lt (lt_of_lt_of_le hbn hlen)] at hgo
    exact hcl b o hbn hgo

/-- Addresses below `n0` that are neither on the recursion stack nor
memoised yet.  Entering a container strictly shrinks this set; the fuel only
needs to dominate its size. -/
def pending (st : RSt) (n0 : Nat) : Finset Nat :=
  (Finset.range n0).filter (fun a => a ∉ st.seen ∧ lk st.resolved a = none)

theorem pending_subset_of_evol {st st2 : RSt} {n0 : Nat} (hev : StEvol st st2) :
    pending st2 n0 ⊆ pending st n0 := by
  intro b hb
  simp only [pending, Finset.mem_filter, Finset.mem_range] at hb ⊢
  obtain ⟨hbn, hbs, hbr⟩ := hb
  refine ⟨hbn, ?_⟩
  by_contra hc
  push_neg at hc
  have hb0 : b ∈ st.seen ∨ (lk st.resolved b).isSome := by
    by_cases hbs0 : b ∈ st.seen
    · left; exact hbs0
    · right
      have := hc hbs0
      cases hlk : lk st.resolved b with
      | none => exact absurd hlk this
      | some w => simp
  rcases hev.2.2.2 b hb0 with hmem | hsome
  · exact hbs hmem
  · rw [hbr] at hsome
    simp at hsome

theorem pending_card_mid {st : RSt} {n0 a : Nat} (han : a < n0)
    (hs : a ∉ st.seen) (hr : lk st.resolved a = none) (o0 : JObj) (w : JVal) :
    (pending { st with
               heap := st.heap ++ [o0],
               seen := a :: st.seen,
               resolved := (a, w) :: st.resolved } n0).card <
      (pending st n0).card := by
  apply Finset.card_lt_card
  constructor
  · intro b hb
    simp only [pending, Finset.mem_filter, Finset.mem_range, List.mem_cons,
      lk_cons] at hb ⊢
    obtain ⟨hbn, hbs, hbr⟩ := hb
    push_neg at hbs
    obtain ⟨hba, hbs⟩ := hbs
    refine ⟨hbn, hbs, ?_⟩
    rw [if_neg (fun hc => hba hc.symm)] at hbr
    exact hbr
  · intro hsub
    have ha : a ∈ pending st n0 := by
      simp only [pending, Finset.mem_filter, Finset.mem_range]
      exact ⟨han, hs, hr⟩
    have ha2 := hsub ha
    simp only [pending, Finset.mem_filter, Finset.mem_range] at ha2
    exact ha2.2.1 (List.mem_cons_self a _)

theorem resolveList_suff_of {f n0 : Nat}
    (hV : ∀ st v, okPrefix st n0 → valClosedB n0 v = true →
      (pending st n0).card < f → (resolveVal f st v).isSome) :
    ∀ l st, okPrefix st n0 → (∀ v ∈ l, valClosedB n0 v = true) →
      (pending st n0).card < f → (resolveList f st l).isSome := by
  intro l
  induction l with
  | nil => intro st _ _ _; simp [resolveList]
  | cons v vs ih =>
    intro st hok hcl hcard
    cases hres : resolveVal f st v with
    | none =>
      have := hV st v hok (hcl v (List.mem_cons_self _ _)) hcard
      rw [hres] at this
      simp at this
    | some p =>
      obtain ⟨r, st1⟩ := p
      have hev := resolveVal_evol f _ _ _ _ hres
      have hok1 := okPrefix_evol hok hev
      have hcard1 : (pending st1 n0).card < f :=
        lt_of_le_of_lt (Finset.card_le_card (pending_subset_of_evol hev)) hcard
      have htail := ih st1 hok1 (fun w hw => hcl w (List.mem_cons_of_mem _ hw)) hcard1
      cases hres2 : resolveList f st1 vs with
      | none => rw [hres2] at htail; simp at htail
      | some q => simp [resolveList, hres, hres2]

theorem resolveFields_suff_of {f n0 : Nat}
    (hV : ∀ st v, okPrefix st n0 → valClosedB n0 v = true →
      (pending st n0).card < f → (resolveVal f st v).isSome) :
    ∀ l st, okPrefix st n0 → (∀ p ∈ l, valClosedB n0 p.2 = true) →
      (pending st n0).card < f → (resolveFields f st l).isSome := by
  intro l
  induction l with
  | nil => intro st _ _ _; simp [resolveFields]
  | cons kv kvs ih =>
    obtain ⟨k, v⟩ := kv
    intro st hok hcl hcard
    cases hres : resolveVal f st v with
    | none =>
      have := hV st v hok (hcl (k, v) (List.mem_cons_self _ _)) hcard
      rw [hres] at this
      simp at this
    | some p =>
      obtain ⟨r, st1⟩ := p
      have hev := resolveVal_evol f _ _ _ _ hres
      have hok1 := okPrefix_evol hok hev
      have hcard1 : (pending st1 n0).card < f :=
        lt_of_le_of_lt (Finset.card_le_card (pending_subset_of_evol hev)) hcard
      have htail := ih st1 hok1 (fun w hw => hcl w (List.mem_cons_of_mem _ hw)) hcard1
      cases hres2 : resolveFields f st1 kvs with
      | none => rw [hres2] at htail; simp at htail
      | some q => simp [resolveFields, hres, hres2]

theorem resolveEntries_suff_of {f n0 : Nat}
    (hV : ∀ st v, okPrefix st n0 → valClosedB n0 v = true →
      (pending st n0).card < f → (resolveVal f st v).isSome) :
    ∀ l st, okPrefix st n0 → (∀ p ∈ l, valClosedB n0 p.2 = true) →
      (pending st n0).card < f → (resolveEntries f st l).isSome := by
  intro l
  induction l with
  | nil => intro st _ _ _; simp [resolveEntries]
  | cons kv kvs ih =>
    obtain ⟨k, v⟩ := kv
    intro st hok hcl hcard
    cases hres : resolveVal f st v with
    | none =>
      have := hV st v hok (hcl (k, v) (List.mem_cons_self _ _)) hcard
      rw [hres] at this
      simp at this
    | some p =>
      obtain ⟨r, st1⟩ := p
      have hev := resolveVal_evol f _ _ _ _ hres
      have hok1 := okPrefix_evol hok hev
      have hcard1 : (pending st1 n0).card < f :=
        lt_of_le_of_lt (Finset.card_le_card (pending_subset_of_evol hev)) hcard
      have htail := ih st1 hok1 (fun w hw => hcl w (List.mem_cons_of_mem _ hw)) hcard1
      cases hres2 : resolveEntries f st1 kvs with
      | none => rw [hres2] at htail; simp at htail
      | some q => simp [resolveEntries, hres, hres2]

/-- Fuel sufficiency: on a heap whose first `n0` entries are closed, a
closed input value, and fuel exceeding the number of pending addresses, the
resolver never runs out of fuel.  This is the termination theorem for the
embedded `resolveProviders`. -/
theorem resolveVal_suff :
    ∀ f n0 st v, okPrefix st n0 → valClosedB n0 v = true →
      (pending st n0).card < f → (resolveVal f st v).isSome := by
  intro f
  induction f with
  | zero =>
    intro n0 st v _ _ hcard
    omega
  | succ n ih =>
    intro n0 st v hok hv hcard
    cases v with
    | undef => simp [resolveVal]
    | jsNull => simp [resolveVal]
    | bool b => simp [resolveVal]
    | num m => simp [resolveVal]
    | str s => simp [resolveVal]
    | fn g => simp [resolveVal]
    | ref a =>
      have han : a < n0 := by simpa [valClosedB] using hv
      have hal : a < st.heap.length := lt_of_lt_of_le han hok.1
      cases hgo : hget st.heap a with
      | none =>
        have := hget_isSome_of_lt hal
        rw [hgo] at this
        simp at this
      | some o =>
        have hocl : objClosedB n0 o = true := hok.2 a o han hgo
        simp only [resolveVal, hgo]
        split
        · cases o <;> simp
        · split
          · simp
          · split
            · simp
            · rename_i hnp hlk hns
              have hV := fun st v h1 h2 h3 => ih n0 st v h1 h2 h3
              cases o with
              | date => simp
              | regexp => simp
              | provider r => simp
              | extend defaults => simp
              | arr elems =>
                simp only [allocObj]
                have hok3 := @okPrefix_mid st _ a (JObj.arr [])
                  (JVal.ref st.heap.length) hok
                have hcl3 : ∀ w ∈ elems, valClosedB n0 w = true := by
                  intro w hw
                  simp only [objClosedB, objValsList, List.all_eq_true] at hocl
                  exact hocl w hw
                have hcard3 := @pending_card_mid st _ _ han hns hlk
                  (JObj.arr []) (JVal.ref st.heap.length)
                have hsome := resolveList_suff_of hV elems _ hok3 hcl3 (by omega)
                split
                · rename_i heqn
                  rw [heqn] at hsome
                  simp at hsome
                · simp
              | setObj elems =>
                simp only [allocObj]
                have hok3 := @okPrefix_mid st _ a (JObj.setObj [])
                  (JVal.ref st.heap.length) hok
                have hcl3 : ∀ w ∈ elems, valClosedB n0 w = true := by
                  intro w hw
                  simp only [objClosedB, objValsList, List.all_eq_true] at hocl
                  exact hocl w hw
                have hcard3 := @pending_card_mid st _ _ han hns hlk
                  (JObj.setObj []) (JVal.ref st.heap.length)
                have hsome := resolveList_suff_of hV elems _ hok3 hcl3 (by omega)
                split
                · rename_i heqn
                  rw [heqn] at hsome
                  simp at hsome
                · simp
              | mapObj entries =>
                simp only [allocObj]
                have hok3 := @okPrefix_mid st _ a (JObj.mapObj [])
                  (JVal.ref st.heap.length) hok
                have hcl3 : ∀ w ∈ entries, valClosedB n0 w.2 = true := by
                  intro w hw
                  simp only [objClosedB, objValsList, List.all_eq_true,
                    List.mem_append, List.mem_map] at hocl
                  exact hocl _ (Or.inr ⟨w, hw, rfl⟩)
                have hcard3 := @pending_card_mid st _ _ han hns hlk
                  (JObj.mapObj []) (JVal.ref st.heap.length)
                have hsome := resolveEntries_suff_of hV entries _ hok3 hcl3 (by omega)
                split
                · rename_i heqn
                  rw [heqn] at hsome
                  simp at hsome
                · simp
              | record proto fields =>
                dsimp only
                split
                · simp only [allocObj]
                  have hok3 := @okPrefix_mid st _ a (JObj.record Proto.plain [])
                    (JVal.ref st.heap.length) hok
                  have hcl3 : ∀ w ∈ fields, valClosedB n0 w.2 = true := by
                    intro w hw
                    simp only [objClosedB, objValsList, List.all_eq_true,
                      List.mem_map] at hocl
                    exact hocl _ ⟨w, hw, rfl⟩
                  have hcard3 := @pending_card_mid st _ _ han hns hlk
                    (JObj.record Proto.plain []) (JVal.ref st.heap.length)
                  have hsome := resolveFields_suff_of hV fields _ hok3 hcl3 (by omega)
                  split
                  · rename_i heqn
                    rw [heqn] at hsome
                    simp at hsome
                  · simp
                · simp

/-- Top-level `resolveProviders(value)` call: the `seen` WeakSet and
`resolved` WeakMap start empty (the JS default parameters); the invocation
log persists across calls.  The fuel `heap.length + 1` is sufficient on
closed heaps by `resolveVal_suff`, so the `none` fallback is unreachable
there. -/
def resolveTop (h : List JObj) (lg : List Nat) (v : JVal) :
    JVal × List JObj × List Nat :=
  match resolveVal (h.length + 1) ⟨h, [], [], lg⟩ v with
  | some (r, st) => (r, st.heap, st.log)
  | none => (v, h, lg)

theorem okPrefix_init (h : List JObj) (lg : List Nat)
    (hcl : heapClosedB h = true) :
    okPrefix ⟨h, [], [], lg⟩ h.length := by
  refine ⟨le_refl _, ?_⟩
  intro a o _ hgo
  simp only [heapClosedB, List.all_eq_true] at hcl
  exact hcl o (hget_mem hgo)

theorem pending_init_card (h : List JObj) (lg : List Nat) (n0 : Nat) :
    (pending ⟨h, [], [], lg⟩ n0).card ≤ n0 := by
  calc (pending ⟨h, [], [], lg⟩ n0).card
      ≤ (Finset.range n0).card := Finset.card_filter_le _ _
    _ = n0 := Finset.card_range n0

/-- On a closed heap the top-level resolver call always succeeds, and the
underlying run is exposed together with its well-formedness facts. -/
theorem resolveTop_spec {h : List JObj} {v : JVal} (lg : List Nat)
    (hcl : heapClosedB h = true) (hv : valClosedB h.length v = true) :
    ∃ r st2, resolveVal (h.length + 1) ⟨h, [], [], lg⟩ v = some (r, st2) ∧
      resolveTop h lg v = (r, st2.heap, st2.log) ∧
      stOK st2 ∧ valClosedB st2.heap.length r = true ∧
      StEvol ⟨h, [], [], lg⟩ st2 := by
  have hsome := resolveVal_suff (h.length + 1) h.length ⟨h, [], [], lg⟩ v
    (okPrefix_init h lg hcl) hv
    (lt_of_le_of_lt (pending_init_card h lg h.length) (Nat.lt_succ_self _))
  cases hres : resolveVal (h.length + 1) ⟨h, [], [], lg⟩ v with
  | none => rw [hres] at hsome; simp at hsome
  | some p =>
    obtain ⟨r, st2⟩ := p
    obtain ⟨hok2, hr2⟩ := resolveVal_closed _ _ _ _ _ hres ⟨hcl, by simp⟩ hv
    exact ⟨r, st2, rfl, by simp [resolveTop, hres], hok2, hr2,
      resolveVal_evol _ _ _ _ _ hres⟩

/-- A reference to a non-provider object that is already memoised resolves
to the memoised replacement, leaving the state untouched. -/
theorem resolveVal_memoHit {f : Nat} {st : RSt} {a : Nat} {o : JObj} {w : JVal}
    (hgo : hget st.heap a = some o) (hnp : isProviderObj o = false)
    (hlkm : lk st.resolved a = some w) :
    resolveVal (f + 1) st (.ref a) = some (w, st) := by
  simp [resolveVal, hgo, hnp, hlkm]

/-- Field resolution keeps keys, in order. -/
theorem resolveFields_keys {f : Nat} :
    ∀ l st r st2, resolveFields f st l = some (r, st2) →
      r.map Prod.fst = l.map Prod.fst := by
  intro l
  induction l with
  | nil =>
    intro st r st2 h
    simp only [resolveFields, Option.some.injEq, Prod.mk.injEq] at h
    obtain ⟨h1, _⟩ := h
    subst h1
    simp
  | cons kv kvs ih =>
    obtain ⟨k, v⟩ := kv
    intro st r st2 h
    simp only [resolveFields] at h
    split at h
    · exact Option.noConfusion h
    · rename_i p heq1
      obtain ⟨r1, st1⟩ := p
      split at h
      · exact Option.noConfusion h
      · rename_i q heq2
        obtain ⟨rs, stq⟩ := q
        simp only [Option.some.injEq, Prod.mk.injEq] at h
        obtain ⟨h1, _⟩ := h
        subst h1
        simpa using ih _ _ _ heq2

/-- During field resolution, every field that referenced an already-memoised
non-provider address receives the memoised replacement. -/
theorem resolveFields_memoVal {f : Nat} {a : Nat} {w : JVal} :
    ∀ l st r st2, resolveFields f st l = some (r, st2) →
      lk st.resolved a = some w →
      (∀ o, hget st.heap a = some o → isProviderObj o = false) →
      a < st.heap.length →
      ∀ k, lk l k = some (JVal.ref a) → lk r k = some w := by
  intro l
  induction l with
  | nil =>
    intro st r st2 h _ _ _ k hk
    simp [lk] at hk
  | cons kv kvs ih =>
    obtain ⟨k0, v0⟩ := kv
    intro st r st2 h hm hnp hal k hk
    simp only [resolveFields] at h
    split at h
    · exact Option.noConfusion h
    · rename_i p heq1
      obtain ⟨r1, st1⟩ := p
      split at h
      · exact Option.noConfusion h
      · rename_i q heq2
        obtain ⟨rs, stq⟩ := q
        simp only [Option.some.injEq, Prod.mk.injEq] at h
        obtain ⟨h1, h2⟩ := h
        subst h1; subst h2
        rw [lk_cons] at hk ⊢
        by_cases hkk : k0 = k
        · rw [if_pos hkk] at hk ⊢
          simp only [Option.some.injEq] at hk
          subst hk
          cases f with
          | zero => simp [resolveVal] at heq1
          | succ m =>
            cases hgo : hget st.heap a with
            | none =>
              have := hget_isSome_of_lt hal
              rw [hgo] at this
              simp at this
            | some o =>
              rw [resolveVal_memoHit hgo (hnp o hgo) hm] at heq1
              simp only [Option.some.injEq, Prod.mk.injEq] at heq1
              exact congrArg some heq1.1.symm
        · rw [if_neg hkk] at hk ⊢
          have hev := resolveVal_evol f _ _ _ _ heq1
          refine ih _ _ _ heq2 (hev.2.2.1 a w hm) ?_ (lt_of_lt_of_le hal hev.1) k hk
          intro o hgo
          rw [hev.2.1 a hal] at hgo
          exact hnp o hgo

/-- All logged invocations point at provider-marked heap objects. -/
def logOK (st : RSt) : Prop :=
  ∀ b ∈ st.log, ∃ o, hget st.heap b = some o ∧ isProviderObj o = true

theorem logOK_mid {st : RSt} (a : Nat) (o0 : JObj) (w : JVal) (hl : logOK st) :
    logOK { st with
            heap := st.heap ++ [o0],
            seen := a :: st.seen,
            resolved := (a, w) :: st.resolved } := by
  intro b hb
  obtain ⟨o, hgo, hpo⟩ := hl b hb
  exact ⟨o, by rw [hget_append_lt (hget_lt_length hgo)]; exact hgo, hpo⟩

theorem logOK_container {st st4 : RSt} {a : Nat} {o0 o2 : JObj}
    (hph : isProviderObj o0 = false) (h4 : logOK st4)
    (hev : StEvol
      { st with
        heap := st.heap ++ [o0],
        seen := a :: st.seen,
        resolved := (a, JVal.ref st.heap.length) :: st.resolved } st4) :
    logOK { setObjAt st4 st.heap.length o2 with seen := st4.seen.erase a } := by
  intro b hb
  obtain ⟨o, hgo, hpo⟩ := h4 b hb
  have hplace : hget st4.heap st.heap.length = some o0 := by
    have hlt : st.heap.length <
        (st.heap ++ [o0]).length := by simp
    have := hev.2.1 st.heap.length hlt
    rw [this]
    exact hget_append_self st.heap o0
  have hbne : b ≠ st.heap.length := by
    intro hc
    subst hc
    rw [hplace] at hgo
    simp only [Option.some.injEq] at hgo
    subst hgo
    rw [hpo] at hph
    exact Bool.noConfusion hph
  refine ⟨o, ?_, hpo⟩
  simp only [setObjAt]
  rw [hget_hset_ne _ _ _ _ hbne]
  exact hgo

theorem resolveList_logOK_of {f : Nat}
    (hV : ∀ st v r st2, resolveVal f st v = some (r, st2) → logOK st → logOK st2) :
    ∀ l st r st2, resolveList f st l = some (r, st2) → logOK st → logOK st2 := by
  intro l
  induction l with
  | nil =>
    intro st r st2 h hl
    simp only [resolveList, Option.some.injEq, Prod.mk.injEq] at h
    obtain ⟨_, h2⟩ := h; subst h2; exact hl
  | cons v vs ih =>
    intro st r st2 h hl
    simp only [resolveList] at h
    split at h
    · exact Option.noConfusion h
    · rename_i p heq1
      obtain ⟨r1, st1⟩ := p
      split at h
      · exact Option.noConfusion h
      · rename_i q heq2
        obtain ⟨rs, stq⟩ := q
        simp only [Option.some.injEq, Prod.mk.injEq] at h
        obtain ⟨_, h2⟩ := h; subst h2
        exact ih _ _ _ heq2 (hV _ _ _ _ heq1 hl)

theorem resolveFields_logOK_of {f : Nat}
    (hV : ∀ st v r st2, resolveVal f st v = some (r, st2) → logOK st → logOK st2) :
    ∀ l st r st2, resolveFields f st l = some (r, st2) → logOK st → logOK st2 := by
  intro l
  induction l with
  | nil =>
    intro st r st2 h hl
    simp only [resolveFields, Option.some.injEq, Prod.mk.injEq] at h
    obtain ⟨_, h2⟩ := h; subst h2; exact hl
  | cons kv kvs ih =>
    obtain ⟨k, v⟩ := kv
    intro st r st2 h hl
    simp only [resolveFields] at h
    split at h
    · exact Option.noConfusion h
    · rename_i p heq1
      obtain ⟨r1, st1⟩ := p
      split at h
      · exact Option.noConfusion h
      · rename_i q heq2
        obtain ⟨rs, stq⟩ := q
        simp only [Option.some.injEq, Prod.mk.injEq] at h
        obtain ⟨_, h2⟩ := h; subst h2
        exact ih _ _ _ heq2 (hV _ _ _ _ heq1 hl)

theorem resolveEntries_logOK_of {f : Nat}
    (hV : ∀ st v r st2, resolveVal f st v = some (r, st2) → logOK st → logOK st2) :
    ∀ l st r st2, resolveEntries f st l = some (r, st2) → logOK st → logOK st2 := by
  intro l
  induction l with
  | nil =>
    intro st r st2 h hl
    simp only [resolveEntries, Option.some.injEq, Prod.mk.injEq] at h
    obtain ⟨_, h2⟩ := h; subst h2; exact hl
  | cons kv kvs ih =>
    obtain ⟨k, v⟩ := kv
    intro st r st2 h hl
    simp only [resolveEntries] at h
    split at h
    · exact Option.noConfusion h
    · rename_i p heq1
      obtain ⟨r1, st1⟩ := p
      split at h
      · exact Option.noConfusion h
      · rename_i q heq2
        obtain ⟨rs, stq⟩ := q
        simp only [Option.some.injEq, Prod.mk.injEq] at h
        obtain ⟨_, h2⟩ := h; subst h2
        exact ih _ _ _ heq2 (hV _ _ _ _ heq1 hl)

/-- The `provide()` invocation log only ever records provider-marked
objects: the resolver never invokes a resolution-shaped method of an object
lacking the marker. -/
theorem resolveVal_logOK :
    ∀ f st v r st2, resolveVal f st v = some (r, st2) → logOK st → logOK st2 := by
  intro f
  induction f with
  | zero =>
    intro st v r st2 h _
    simp [resolveVal] at h
  | succ n ih =>
    have hL := resolveList_logOK_of (f := n) ih
    have hF := resolveFields_logOK_of (f := n) ih
    have hE := resolveEntries_logOK_of (f := n) ih
    intro st v r st2 h hl
    cases v with
    | undef =>
      simp only [resolveVal, Option.some.injEq, Prod.mk.injEq] at h
      obtain ⟨_, h2⟩ := h; subst h2; exact hl
    | jsNull =>
      simp only [resolveVal, Option.some.injEq, Prod.mk.injEq] at h
      obtain ⟨_, h2⟩ := h; subst h2; exact hl
    | bool b =>
      simp only [resolveVal, Option.some.injEq, Prod.mk.injEq] at h
      obtain ⟨_, h2⟩ := h; subst h2; exact hl
    | num m =>
      simp only [resolveVal, Option.some.injEq, Prod.mk.injEq] at h
      obtain ⟨_, h2⟩ := h; subst h2; exact hl
    | str s =>
      simp only [resolveVal, Option.some.injEq, Prod.mk.injEq] at h
      obtain ⟨_, h2⟩ := h; subst h2; exact hl
    | fn g =>
      simp only [resolveVal, Option.some.injEq, Prod.mk.injEq] at h
      obtain ⟨_, h2⟩ := h; subst h2; exact hl
    | ref a =>
      simp only [resolveVal] at h
      split at h
      · simp only [Option.some.injEq, Prod.mk.injEq] at h
        obtain ⟨_, h2⟩ := h; subst h2; exact hl
      · rename_i o hgo
        split at h
        · rename_i hip
          split at h
          · rename_i r0
            simp only [Option.some.injEq, Prod.mk.injEq] at h
            obtain ⟨_, h2⟩ := h; subst h2
            intro b hb
            rcases List.mem_append.mp hb with hb | hb
            · obtain ⟨o1, hgo1, hpo1⟩ := hl b hb
              exact ⟨o1, hgo1, hpo1⟩
            · simp only [List.mem_singleton] at hb
              subst hb
              exact ⟨JObj.provider r0, hgo, rfl⟩
          · simp only [Option.some.injEq, Prod.mk.injEq] at h
            obtain ⟨_, h2⟩ := h; subst h2; exact hl
        · split at h
          · simp only [Option.some.injEq, Prod.mk.injEq] at h
            obtain ⟨_, h2⟩ := h; subst h2; exact hl
          · rename_i hlk
            split at h
            · simp only [Option.some.injEq, Prod.mk.injEq] at h
              obtain ⟨_, h2⟩ := h; subst h2; exact hl
            · split at h
              · simp only [Option.some.injEq, Prod.mk.injEq] at h
                obtain ⟨_, h2⟩ := h; subst h2
                exact fun b hb => hl b hb
              · simp only [Option.some.injEq, Prod.mk.injEq] at h
                obtain ⟨_, h2⟩ := h; subst h2
                exact fun b hb => hl b hb
              · -- array
                simp only [allocObj] at h
                split at h
                · exact Option.noConfusion h
                · rename_i heq
                  simp only [Option.some.injEq, Prod.mk.injEq] at h
                  obtain ⟨_, h2⟩ := h; subst h2
                  exact @logOK_container st _ _ (JObj.arr []) _ rfl
                    (hL _ _ _ _ heq (@logOK_mid st a _ _ hl))
                    (resolveList_evol n _ _ _ _ heq)
              · -- map
                simp only [allocObj] at h
                split at h
                · exact Option.noConfusion h
                · rename_i heq
                  simp only [Option.some.injEq, Prod.mk.injEq] at h
                  obtain ⟨_, h2⟩ := h; subst h2
                  exact @logOK_container st _ _ (JObj.mapObj []) _ rfl
                    (hE _ _ _ _ heq (@logOK_mid st a _ _ hl))
                    (resolveEntries_evol n _ _ _ _ heq)
              · -- set
                simp only [allocObj] at h
                split at h
                · exact Option.noConfusion h
                · rename_i heq
                  simp only [Option.some.injEq, Prod.mk.injEq] at h
                  obtain ⟨_, h2⟩ := h; subst h2
                  exact @logOK_container st _ _ (JObj.setObj []) _ rfl
                    (hL _ _ _ _ heq (@logOK_mid st a _ _ hl))
                    (resolveList_evol n _ _ _ _ heq)
              · -- record
                split at h
                · simp only [allocObj] at h
                  split at h
                  · exact Option.noConfusion h
                  · rename_i heq
                    simp only [Option.some.injEq, Prod.mk.injEq] at h
                    obtain ⟨_, h2⟩ := h; subst h2
                    exact @logOK_container st _ _ (JObj.record Proto.plain []) _ rfl
                      (hF _ _ _ _ heq (@logOK_mid st a _ _ hl))
                      (resolveFields_evol n _ _ _ _ heq)
                · simp only [Option.some.injEq, Prod.mk.injEq] at h
                  obtain ⟨_, h2⟩ := h; subst h2
                  exact fun b hb => hl b hb
              · -- extend
                simp only [Option.some.injEq, Prod.mk.injEq] at h
                obtain ⟨_, h2⟩ := h; subst h2
                exact fun b hb => hl b hb
              · -- provider (unreachable duplicate)
                simp only [Option.some.injEq, Prod.mk.injEq] at h
                obtain ⟨_, h2⟩ := h; subst h2
                exact fun b hb => hl b hb

/-! ### Claim C5 and C9: cycle safety and provider-marker discipline -/

/-- Intermediate state of the resolver while the fields of the plain record
at `a` are being resolved: placeholder allocated, memo registered, `a` on the
recursion stack. -/
def recMidSt (st : RSt) (a : Nat) : RSt :=
  { st with
    heap := st.heap ++ [JObj.record Proto.plain []],
    seen := a :: st.seen,
    resolved := (a, JVal.ref st.heap.length) :: st.resolved }

/-- One unfolding step of the resolver on a fresh plain record. -/
theorem resolveVal_plainRecord {f : Nat} {st : RSt} {a : Nat}
    {fields : List (String × JVal)}
    (hga : hget st.heap a = some (JObj.record Proto.plain fields))
    (hlk : lk st.resolved a = none) (hns : a ∉ st.seen) :
    resolveVal (f + 1) st (JVal.ref a) =
      match resolveFields f (recMidSt st a) fields with
      | none => none
      | some (fields2, st4) =>
        some (JVal.ref st.heap.length,
          { setObjAt st4 st.heap.length (JObj.record Proto.plain fields2) with
            seen := st4.seen.erase a }) := by
  simp [resolveVal, hga, hlk, hns, isProviderObj, allocObj, recMidSt, setObjAt]

/-- One unfolding step of the resolver on a fresh class instance: identity
passthrough, no traversal, no allocation, no invocation. -/
theorem resolveVal_clsRecord {f : Nat} {st : RSt} {a : Nat}
    {fields : List (String × JVal)}
    (hga : hget st.heap a = some (JObj.record Proto.cls fields))
    (hlk : lk st.resolved a = none) (hns : a ∉ st.seen) :
    resolveVal (f + 1) st (JVal.ref a) =
      some (JVal.ref a, { st with seen := a :: st.seen }) := by
  simp [resolveVal, hga, hlk, hns, isProviderObj]

/-- C5: For every plain record `x` containing a self-reference
(`x.self = x`) in a closed heap, `resolveProviders(x)` terminates (the
explicit fuel `heap.length + 1` suffices) and returns a freshly allocated
record with the same keys whose `self` field references the new record
itself: the identity-keyed memo breaks the cycle while preserving the
reference. -/
theorem C5_cycle_safety (h : List JObj) (lg : List Nat) (a : Nat)
    (fields : List (String × JVal))
    (hcl : heapClosedB h = true)
    (hga : hget h a = some (JObj.record Proto.plain fields))
    (hself : lk fields "self" = some (JVal.ref a)) :
    ∃ st2 fields2,
      resolveVal (h.length + 1) ⟨h, [], [], lg⟩ (JVal.ref a) =
        some (JVal.ref h.length, st2) ∧
      resolveTop h lg (JVal.ref a) = (JVal.ref h.length, st2.heap, st2.log) ∧
      h.length ≠ a ∧
      hget st2.heap h.length = some (JObj.record Proto.plain fields2) ∧
      fields2.map Prod.fst = fields.map Prod.fst ∧
      lk fields2 "self" = some (JVal.ref h.length) := by
  have han : a < h.length := hget_lt_length hga
  have hok3 : okPrefix (recMidSt ⟨h, [], [], lg⟩ a) h.length :=
    okPrefix_mid a (JObj.record Proto.plain []) (JVal.ref h.length)
      (okPrefix_init h lg hcl)
  have hclf : ∀ p ∈ fields, valClosedB h.length p.2 = true := by
    intro p hp
    have hall := hcl
    simp only [heapClosedB, List.all_eq_true] at hall
    have := hall _ (hget_mem hga)
    simp only [objClosedB, objValsList, List.all_eq_true, List.mem_map] at this
    exact this _ ⟨p, hp, rfl⟩
  have hcard3 : (pending (recMidSt ⟨h, [], [], lg⟩ a) h.length).card < h.length := by
    have h1 : (pending (recMidSt ⟨h, [], [], lg⟩ a) h.length).card <
        (pending ⟨h, [], [], lg⟩ h.length).card :=
      @pending_card_mid ⟨h, [], [], lg⟩ _ _ han (by simp) rfl
        (JObj.record Proto.plain []) (JVal.ref h.length)
    have h2 := pending_init_card h lg h.length
    omega
  have hsome := resolveFields_suff_of
    (fun st v h1 h2 h3 => resolveVal_suff h.length h.length st v h1 h2 h3)
    fields (recMidSt ⟨h, [], [], lg⟩ a) hok3 hclf hcard3
  cases hres : resolveFields h.length (recMidSt ⟨h, [], [], lg⟩ a) fields with
  | none => rw [hres] at hsome; simp at hsome
  | some p =>
    obtain ⟨fields2, st4⟩ := p
    have hrec := @resolveVal_plainRecord h.length ⟨h, [], [], lg⟩ a _
      hga rfl (by simp)
    have heqn : resolveVal (h.length + 1) ⟨h, [], [], lg⟩ (JVal.ref a) =
        some (JVal.ref h.length,
          { setObjAt st4 h.length (JObj.record Proto.plain fields2) with
            seen := st4.seen.erase a }) := by
      rw [hrec, hres]
    have hlen4 : h.length + 1 ≤ st4.heap.length := by
      have := (resolveFields_evol h.length _ _ _ _ hres).1
      simpa [recMidSt] using this
    refine ⟨_, fields2, heqn, ?_, by omega, ?_, ?_, ?_⟩
    · simp [resolveTop, heqn]
    · show hget (hset st4.heap h.length (JObj.record Proto.plain fields2))
        h.length = _
      exact hget_hset_self _ (by omega)
    · exact resolveFields_keys _ _ _ _ hres
    · refine resolveFields_memoVal _ _ _ _ hres ?_ ?_ ?_ "self" hself
      · simp [recMidSt, lk]
      · intro o hgo
        have : hget (h ++ [JObj.record Proto.plain []]) a = some o := hgo
        rw [hget_append_lt han, hga] at this
        simp only [Option.some.injEq] at this
        subst this
        rfl
      · show a < (h ++ [JObj.record Proto.plain []]).length
        simp
        omega

/-- Witness for C5 at the concrete record `x = { self: x, k: 7 }`. -/
theorem C5_witness :
    heapClosedB [JObj.record Proto.plain [("self", JVal.ref 0), ("k", JVal.num 7)]]
        = true ∧
    hget [JObj.record Proto.plain [("self", JVal.ref 0), ("k", JVal.num 7)]] 0 =
      some (JObj.record Proto.plain [("self", JVal.ref 0), ("k", JVal.num 7)]) ∧
    lk [("self", JVal.ref 0), ("k", JVal.num 7)] "self" = some (JVal.ref 0) ∧
    ∃ st2 fields2,
      resolveVal 2 ⟨[JObj.record Proto.plain [("self", JVal.ref 0), ("k", JVal.num 7)]],
          [], [], []⟩ (JVal.ref 0) = some (JVal.ref 1, st2) ∧
      resolveTop [JObj.record Proto.plain [("self", JVal.ref 0), ("k", JVal.num 7)]]
          [] (JVal.ref 0) = (JVal.ref 1, st2.heap, st2.log) ∧
      (1 : Nat) ≠ 0 ∧
      hget st2.heap 1 = some (JObj.record Proto.plain fields2) ∧
      fields2.map Prod.fst =
        [("self", JVal.ref 0), ("k", JVal.num 7)].map Prod.fst ∧
      lk fields2 "self" = some (JVal.ref 1) :=
  ⟨by decide, by decide, by decide,
    C5_cycle_safety [JObj.record Proto.plain [("self", JVal.ref 0), ("k", JVal.num 7)]]
      [] 0 [("self", JVal.ref 0), ("k", JVal.num 7)]
      (by decide) (by decide) (by decide)⟩

/-- C9: a value exposing a resolution-shaped method without the hidden
provider marker is never invoked by `resolveProviders`: every logged
invocation belongs to a marker-carrying provider object, and a class
instance (non-plain prototype), even one with a `provide` member, is
returned by identity, untraversed, with heap and invocation log
unchanged. -/
theorem C9_unmarked_never_invoked :
    (∀ f st v r st2, resolveVal f st v = some (r, st2) → st.log = [] →
      ∀ b ∈ st2.log, ∃ o, hget st2.heap b = some o ∧ isProviderObj o = true) ∧
    (∀ (h : List JObj) (lg : List Nat) (a : Nat) (fields : List (String × JVal)),
      hget h a = some (JObj.record Proto.cls fields) →
      resolveTop h lg (JVal.ref a) = (JVal.ref a, h, lg)) := by
  constructor
  · intro f st v r st2 hres hlog b hb
    refine resolveVal_logOK f st v r st2 hres ?_ b hb
    intro c hc
    rw [hlog] at hc
    exact absurd hc (List.not_mem_nil c)
  · intro h lg a fields hga
    have hrec := @resolveVal_clsRecord h.length ⟨h, [], [], lg⟩ a _
      hga rfl (by simp)
    simp [resolveTop, hrec]

/-- Witness for C9: a class instance carrying a `provide`-shaped member is
passed through untouched, and a run over a marked provider plus an unmarked
object logs only the marked provider's address. -/
theorem C9_witness :
    hget [JObj.record Proto.cls [("provide", JVal.fn 0)]] 0 =
      some (JObj.record Proto.cls [("provide", JVal.fn 0)]) ∧
    resolveTop [JObj.record Proto.cls [("provide", JVal.fn 0)]] [] (JVal.ref 0) =
      (JVal.ref 0, [JObj.record Proto.cls [("provide", JVal.fn 0)]], []) ∧
    resolveVal 2 ⟨[JObj.provider (JVal.num 3)], [], [], []⟩ (JVal.ref 0) =
      some (JVal.num 3, ⟨[JObj.provider (JVal.num 3)], [], [], [0]⟩) ∧
    ∀ b ∈ ([0] : List Nat), ∃ o,
      hget ([JObj.provider (JVal.num 3)] : List JObj) b = some o ∧
      isProviderObj o = true :=
  ⟨by decide,
    C9_unmarked_never_invoked.2 [JObj.record Proto.cls [("provide", JVal.fn 0)]]
      [] 0 [("provide", JVal.fn 0)] (by decide),
    by simp [resolveVal, hget, isProviderObj],
    C9_unmarked_never_invoked.1 2 ⟨[JObj.provider (JVal.num 3)], [], [], []⟩
      (JVal.ref 0) (JVal.num 3) ⟨[JObj.provider (JVal.num 3)], [], [], [0]⟩
      (by simp [resolveVal, hget, isProviderObj]) rfl⟩

/-! ### Provider hierarchy (src/providers.ts, BaseProvider/Factory/Singleton/Delegate) -/

/-- World state threaded through provider calls: the heap, the
`resolveProviders` invocation log, and the list of argument lists passed to
the factory's target on each invocation (instrumentation that makes "the
target was (not) invoked" provable). -/
structure PW where
  heap : List JObj
  plog : List Nat
  tlog : List (List JVal)
deriving DecidableEq, Repr

/-- `BaseProvider._delegateIfOverridden(...args)`: with a non-empty override
stack, return the last overriding provider's `provide(...args)`; otherwise
return `undefined`.  Overriding providers are arbitrary objects satisfying
the `Provider` interface; they are modelled abstractly by a type `Ov` with a
pure `provide` function `ovP`. -/
def delegateIfOverridden {Ov : Type} (ovP : Ov → List JVal → JVal)
    (stack : List Ov) (args : List JVal) : JVal :=
  match stack.getLast? with
  | some o => ovP o args
  | none => JVal.undef

/-- `BaseProvider.override(provider)`: push onto the stack.  (The runtime
validation that the argument has a `provide` method is implicit in `Ov`.) -/
def overridePush {Ov : Type} (stack : List Ov) (o : Ov) : List Ov :=
  stack ++ [o]

/-- `BaseProvider.resetLastOverriding()`: pop the last override; `none`
models the thrown error on an empty stack. -/
def resetLastOverriding {Ov : Type} (stack : List Ov) : Option (Ov × List Ov) :=
  match stack.getLast? with
  | none => none
  | some o => some (o, stack.dropLast)

/-- `BaseProvider.resetOverride()`: return the removed providers (a copy of
the stack, in push order) and empty the stack. -/
def resetOverride {Ov : Type} (stack : List Ov) : List Ov × List Ov :=
  (stack, [])

/-- `BaseProvider.isOverridden()`. -/
def isOverridden {Ov : Type} (stack : List Ov) : Bool :=
  decide (0 < stack.length)

/-- `isExtend(arg)`: the argument references an object carrying the
`EXTEND_SYMBOL` marker. -/
def isExtendVal (h : List JObj) (v : JVal) : Bool :=
  match v with
  | .ref a =>
    match hget h a with
    | some (.extend _) => true
    | _ => false
  | _ => false

/-- JavaScript `key in context`.  `none` models the `{}` literal used when
no call argument was supplied.  The `in` operator throws a TypeError on
non-object operands (null, undefined, numbers, strings, booleans); for
record objects it tests the own fields.  (Index properties of arrays and
built-in members of functions and other exotic objects are outside the
modelled fragment — no claim exercises them.) -/
def keyInContext (h : List JObj) (ctx : Option JVal) (k : String) :
    Except Unit Bool :=
  match ctx with
  | none => .ok false
  | some (.undef) => .error ()
  | some (.jsNull) => .error ()
  | some (.bool _) => .error ()
  | some (.num _) => .error ()
  | some (.str _) => .error ()
  | some (.fn _) => .ok false
  | some (.ref a) =>
    match hget h a with
    | some (.record _ fields) => .ok (decide (k ∈ fields.map Prod.fst))
    | _ => .ok false

/-- Own enumerable string-keyed properties contributed by `...context` in
`{ ...resolvedDefaults, ...context }`.  Spreading `undefined`, `null` or a
number contributes nothing; a record contributes its fields.  (Exotic
spreads — strings, arrays — are outside the modelled fragment.) -/
def spreadFields (h : List JObj) (ctx : Option JVal) : List (String × JVal) :=
  match ctx with
  | some (.ref a) =>
    match hget h a with
    | some (.record _ fields) => fields
    | _ => []
  | _ => []

/-- The `for (const key in defaults)` loop of `Factory._resolveArg`: for each
key absent from the context, resolve the default through `resolveProviders`;
keys present in the context are skipped entirely (their defaults are never
resolved).  A TypeError from `key in context` aborts the whole call. -/
def resolveDefaults (h : List JObj) (lg : List Nat) (ctx : Option JVal) :
    List (String × JVal) → Except Unit (List (String × JVal) × List JObj × List Nat)
  | [] => .ok ([], h, lg)
  | (k, dv) :: rest =>
    match keyInContext h ctx k with
    | .error e => .error e
    | .ok true => resolveDefaults h lg ctx rest
    | .ok false =>
      match resolveTop h lg dv with
      | (r, h2, lg2) =>
        match resolveDefaults h2 lg2 ctx rest with
        | .error e => .error e
        | .ok (rs, h3, lg3) => .ok ((k, r) :: rs, h3, lg3)

/-- The `isExtend` branch of `Factory._resolveArg`: `context` is
`contextArgs[0]` when at least one call argument was supplied, the empty
object otherwise; the merged result `{ ...resolvedDefaults, ...context }` is
a freshly allocated plain record. -/
def resolveExtendArg (h : List JObj) (lg : List Nat)
    (defaults : List (String × JVal)) (contextArgs : List JVal) :
    Except Unit (JVal × List JObj × List Nat) :=
  let ctx : Option JVal := contextArgs.head?
  match resolveDefaults h lg ctx defaults with
  | .error e => .error e
  | .ok (resolvedDefaults, h2, lg2) =>
    .ok (JVal.ref h2.length,
      h2 ++ [JObj.record Proto.plain (resolvedDefaults ++ spreadFields h2 ctx)],
      lg2)

/-- `Factory._resolveArg(arg, contextArgs)`: an `Extend` wrapper resolves by
merging; any other argument goes through `resolveProviders`. -/
def resolveArg (h : List JObj) (lg : List Nat) (arg : JVal)
    (contextArgs : List JVal) : Except Unit (JVal × List JObj × List Nat) :=
  match arg with
  | .ref a =>
    match hget h a with
    | some (.extend defaults) => resolveExtendArg h lg defaults contextArgs
    | _ => .ok (resolveTop h lg arg)
  | _ => .ok (resolveTop h lg arg)

/-- `this.injectedArgs.map((arg) => this._resolveArg(arg, args))`, threading
the heap and invocation log left to right; a thrown TypeError propagates. -/
def resolveArgList (h : List JObj) (lg : List Nat) :
    List JVal → List JVal → Except Unit (List JVal × List JObj × List Nat)
  | [], _ => .ok ([], h, lg)
  | arg :: rest, contextArgs =>
    match resolveArg h lg arg contextArgs with
    | .error e => .error e
    | .ok (r, h2, lg2) =>
      match resolveArgList h2 lg2 rest contextArgs with
      | .error e => .error e
      | .ok (rs, h3, lg3) => .ok (r :: rs, h3, lg3)

/-- A `Factory`'s fixed data: the target (constructor or plain function —
both receive the same argument list, so they are modelled by one pure
function) and the injected arguments. -/
structure FactoryData where
  target : List JVal → JVal
  injectedArgs : List JVal

/-- The body of `Factory.provide` after the override check: detect `Extend`
usage, resolve the injected arguments, and call the target with the call
arguments prepended unless an `Extend` wrapper was used. -/
def factoryOwn (F : FactoryData) (args : List JVal) (w : PW) :
    Except Unit (JVal × PW) :=
  let hasExtend := F.injectedArgs.any (fun a => isExtendVal w.heap a)
  match resolveArgList w.heap w.plog F.injectedArgs args with
  | .error e => .error e
  | .ok (resolvedArgs, h2, lg2) =>
    let callArgs := if hasExtend then resolvedArgs else args ++ resolvedArgs
    .ok (F.target callArgs, ⟨h2, lg2, w.tlog ++ [callArgs]⟩)

/-- `Factory.provide(...args)`: delegate to the top override when its result
is not `undefined`, otherwise run the factory's own logic. -/
def factoryProvide {Ov : Type} (ovP : Ov → List JVal → JVal) (stack : List Ov)
    (F : FactoryData) (args : List JVal) (w : PW) : Except Unit (JVal × PW) :=
  let overridden := delegateIfOverridden ovP stack args
  if overridden ≠ JVal.undef then .ok (overridden, w)
  else factoryOwn F args w

/-- `Singleton.provide(...args)`: override check first, then the memoised
slot (`instance`, initially JS `null`); an empty slot is filled via
`super.provide(...args)`.  Returns (result, new slot value, world). -/
def singletonProvide {Ov : Type} (ovP : Ov → List JVal → JVal) (stack : List Ov)
    (F : FactoryData) (cache : JVal) (args : List JVal) (w : PW) :
    Except Unit (JVal × JVal × PW) :=
  let overridden := delegateIfOverridden ovP stack args
  if overridden ≠ JVal.undef then .ok (overridden, cache, w)
  else if cache = JVal.jsNull then
    match factoryProvide ovP stack F args w with
    | .error e => .error e
    | .ok (r, w2) => .ok (r, r, w2)
  else .ok (cache, cache, w)

/-- `Singleton.resetInstance()`: clear the slot back to JS `null`. -/
def resetInstance (_cache : JVal) : JVal := JVal.jsNull

/-- `Delegate.provide()`: the override check is performed with NO arguments
(`this._delegateIfOverridden()`); otherwise the wrapped provider reference
itself is returned. -/
def delegateProvide {Ov : Type} (ovP : Ov → List JVal → JVal) (stack : List Ov)
    (delegated : JVal) : JVal :=
  let overridden := delegateIfOverridden ovP stack []
  if overridden ≠ JVal.undef then overridden else delegated

/-! ### Override delegation helpers -/

theorem provide_top_factory {Ov : Type} {ovP : Ov → List JVal → JVal}
    {stack : List Ov} {o : Ov} {args : List JVal}
    (htop : stack.getLast? = some o) (hne : ovP o args ≠ JVal.undef)
    (F : FactoryData) (w : PW) :
    factoryProvide ovP stack F args w = .ok (ovP o args, w) := by
  simp [factoryProvide, delegateIfOverridden, htop, hne]

theorem provide_top_singleton {Ov : Type} {ovP : Ov → List JVal → JVal}
    {stack : List Ov} {o : Ov} {args : List JVal}
    (htop : stack.getLast? = some o) (hne : ovP o args ≠ JVal.undef)
    (F : FactoryData) (cache : JVal) (w : PW) :
    singletonProvide ovP stack F cache args w = .ok (ovP o args, cache, w) := by
  simp [singletonProvide, delegateIfOverridden, htop, hne]

theorem provide_top_delegate {Ov : Type} {ovP : Ov → List JVal → JVal}
    {stack : List Ov} {o : Ov}
    (htop : stack.getLast? = some o) (hne : ovP o [] ≠ JVal.undef)
    (d : JVal) :
    delegateProvide ovP stack d = ovP o [] := by
  simp [delegateProvide, delegateIfOverridden, htop, hne]

theorem factoryProvide_nil {Ov : Type} (ovP : Ov → List JVal → JVal)
    (F : FactoryData) (args : List JVal) (w : PW) :
    factoryProvide ovP [] F args w = factoryOwn F args w := by
  simp [factoryProvide, delegateIfOverridden]

theorem singletonProvide_nil {Ov : Type} (ovP : Ov → List JVal → JVal)
    (F : FactoryData) (cache : JVal) (args : List JVal) (w : PW) :
    singletonProvide ovP [] F cache args w =
      if cache = JVal.jsNull then
        match factoryOwn F args w with
        | .error e => .error e
        | .ok (r, w2) => .ok (r, r, w2)
      else .ok (cache, cache, w) := by
  simp [singletonProvide, delegateIfOverridden, factoryProvide]

theorem delegateProvide_nil {Ov : Type} (ovP : Ov → List JVal → JVal) (d : JVal) :
    delegateProvide ovP [] d = d := by
  simp [delegateProvide, delegateIfOverridden]

theorem concat_getLast? {Ov : Type} (l : List Ov) (o : Ov) :
    (l ++ [o]).getLast? = some o := List.getLast?_concat l

/-! ### Claim C1 -/

/-- C1 counterexample: a Factory whose top override's `provide` returns
`undefined` does NOT delegate — the factory's own logic runs (the target is
invoked, witnessed by the target log) and its result, not the override's, is
returned. -/
theorem C1_counterexample :
    factoryProvide (fun (_ : Unit) (_ : List JVal) => JVal.undef) [()]
      ⟨fun _ => JVal.num 42, []⟩ [] ⟨[], [], []⟩ =
      .ok (JVal.num 42, ⟨[], [], [[]]⟩) ∧
    (fun (_ : Unit) (_ : List JVal) => JVal.undef) () [] = JVal.undef ∧
    JVal.num 42 ≠ JVal.undef ∧
    ([[]] : List (List JVal)) ≠ [] := by
  refine ⟨?_, rfl, by decide, by decide⟩
  rfl

/-- C1 (amended): for every provider (Factory, Singleton, or Delegate) with
a non-empty override stack, and for every argument list, `provide(...args)`
returns exactly what the most recently pushed override's `provide(...args)`
returns — provided that value is not `undefined` — and the provider's own
logic is not executed: the heap, the resolution log, the target-invocation
log, and the Singleton's memoised slot are all left untouched.  (When the
override returns `undefined` the provider falls back to its own logic; see
the counterexample.) -/
theorem C1_override_delegation (Ov : Type) (ovP : Ov → List JVal → JVal)
    (stack : List Ov) (o : Ov) (args : List JVal)
    (htop : stack.getLast? = some o) (hne : ovP o args ≠ JVal.undef) :
    (∀ F w, factoryProvide ovP stack F args w = .ok (ovP o args, w)) ∧
    (∀ F cache w, singletonProvide ovP stack F cache args w =
      .ok (ovP o args, cache, w)) ∧
    (∀ d, ovP o [] ≠ JVal.undef → delegateProvide ovP stack d = ovP o []) :=
  ⟨fun F w => provide_top_factory htop hne F w,
   fun F cache w => provide_top_singleton htop hne F cache w,
   fun d hne0 => provide_top_delegate htop hne0 d⟩

/-- Witness for C1 at a concrete override stack. -/
theorem C1_witness :
    ([5] : List Nat).getLast? = some 5 ∧
    JVal.num 5 ≠ JVal.undef ∧
    factoryProvide (fun (n : Nat) (_ : List JVal) => JVal.num n) [5]
      ⟨fun _ => JVal.num 0, []⟩ [] ⟨[], [], []⟩ = .ok (JVal.num 5, ⟨[], [], []⟩) ∧
    singletonProvide (fun (n : Nat) (_ : List JVal) => JVal.num n) [5]
      ⟨fun _ => JVal.num 0, []⟩ (JVal.num 7) [] ⟨[], [], []⟩ =
      .ok (JVal.num 5, JVal.num 7, ⟨[], [], []⟩) ∧
    delegateProvide (fun (n : Nat) (_ : List JVal) => JVal.num n) [5]
      (JVal.ref 0) = JVal.num 5 :=
  ⟨by decide, by decide,
   (C1_override_delegation Nat (fun n _ => JVal.num n) [5] 5 []
     (by decide) (by decide)).1 ⟨fun _ => JVal.num 0, []⟩ ⟨[], [], []⟩,
   (C1_override_delegation Nat (fun n _ => JVal.num n) [5] 5 []
     (by decide) (by decide)).2.1 ⟨fun _ => JVal.num 0, []⟩ (JVal.num 7) ⟨[], [], []⟩,
   (C1_override_delegation Nat (fun n _ => JVal.num n) [5] 5 []
     (by decide) (by decide)).2.2 (JVal.ref 0) (by decide)⟩

/-! ### Claim C2 -/

/-- C2 counterexample: a Singleton whose target returns JS `null` never
fills the memoised slot (`instance === null` conflates "unset" with "null
result"), so a subsequent `provide()` invokes the target again — the target
log grows on the second call. -/
theorem C2_counterexample :
    singletonProvide (fun (_ : Unit) (_ : List JVal) => JVal.undef) []
      ⟨fun _ => JVal.jsNull, []⟩ JVal.jsNull [] ⟨[], [], []⟩ =
      .ok (JVal.jsNull, JVal.jsNull, ⟨[], [], [[]]⟩) ∧
    singletonProvide (fun (_ : Unit) (_ : List JVal) => JVal.undef) []
      ⟨fun _ => JVal.jsNull, []⟩ JVal.jsNull [] ⟨[], [], [[]]⟩ =
      .ok (JVal.jsNull, JVal.jsNull, ⟨[], [], [[], []]⟩) :=
  ⟨rfl, rfl⟩

/-- C2 (amended): for every non-overridden Singleton, the first
`provide(...)` runs the factory logic (invoking the target exactly once)
and stores the result in the memoised slot; whenever the stored value is
not JS `null`, every subsequent `provide()` returns it with no work at all
(world untouched, target not invoked), so `resolve() === resolve()`, until
`resetInstance()` clears the slot back to `null` (after which the first
conjunct applies again).  A `null` result is never cached; see the
counterexample. -/
theorem C2_singleton_memoization (Ov : Type) (ovP : Ov → List JVal → JVal) :
    (∀ F args w, singletonProvide ovP [] F JVal.jsNull args w =
      match factoryOwn F args w with
      | .error e => .error e
      | .ok (r, w2) => .ok (r, r, w2)) ∧
    (∀ F args w r w2, factoryOwn F args w = .ok (r, w2) →
      w2.tlog.length = w.tlog.length + 1) ∧
    (∀ F cache args w, cache ≠ JVal.jsNull →
      singletonProvide ovP [] F cache args w = .ok (cache, cache, w)) ∧
    (∀ c, resetInstance c = JVal.jsNull) := by
  refine ⟨?_, ?_, ?_, fun _ => rfl⟩
  · intro F args w
    simp [singletonProvide, delegateIfOverridden, factoryProvide]
  · intro F args w r w2 h
    unfold factoryOwn at h
    split at h
    · exact Except.noConfusion h
    · simp only [Except.ok.injEq, Prod.mk.injEq] at h
      obtain ⟨_, h2⟩ := h
      subst h2
      simp
  · intro F cache args w hne
    simp [singletonProvide, delegateIfOverridden, hne]

/-- Witness for C2 at a concrete Singleton. -/
theorem C2_witness :
    (singletonProvide (fun (_ : Unit) (_ : List JVal) => JVal.undef) []
      ⟨fun _ => JVal.num 1, []⟩ JVal.jsNull [] ⟨[], [], []⟩ =
      match factoryOwn ⟨fun _ => JVal.num 1, []⟩ [] (⟨[], [], []⟩ : PW) with
      | .error e => .error e
      | .ok (r, w2) => .ok (r, r, w2)) ∧
    (⟨[], [], [[]]⟩ : PW).tlog.length = (⟨[], [], []⟩ : PW).tlog.length + 1 ∧
    singletonProvide (fun (_ : Unit) (_ : List JVal) => JVal.undef) []
      ⟨fun _ => JVal.num 1, []⟩ (JVal.num 1) [] ⟨[], [], [[]]⟩ =
      .ok (JVal.num 1, JVal.num 1, ⟨[], [], [[]]⟩) ∧
    resetInstance (JVal.num 1) = JVal.jsNull :=
  ⟨(C2_singleton_memoization Unit (fun _ _ => JVal.undef)).1
      ⟨fun _ => JVal.num 1, []⟩ [] ⟨[], [], []⟩,
   (C2_singleton_memoization Unit (fun _ _ => JVal.undef)).2.1
      ⟨fun _ => JVal.num 1, []⟩ [] ⟨[], [], []⟩ (JVal.num 1) ⟨[], [], [[]]⟩ rfl,
   (C2_singleton_memoization Unit (fun _ _ => JVal.undef)).2.2.1
      ⟨fun _ => JVal.num 1, []⟩ (JVal.num 1) [] ⟨[], [], [[]]⟩ (by decide),
   (C2_singleton_memoization Unit (fun _ _ => JVal.undef)).2.2.2 (JVal.num 1)⟩

/-! ### Claim C6 -/

/-- C6 counterexample: after pushing overrides `[A, B, C] = [0, 1, 2]` where
`C.provide()` returns `undefined`, `provide()` does not behave as
`C.provide` — the factory's own logic runs and returns 7. -/
theorem C6_counterexample :
    factoryProvide
      (fun (n : Nat) (_ : List JVal) => if n = 2 then JVal.undef else JVal.num n)
      [0, 1, 2] ⟨fun _ => JVal.num 7, []⟩ [] ⟨[], [], []⟩ =
      .ok (JVal.num 7, ⟨[], [], [[]]⟩) ∧
    (fun (n : Nat) (_ : List JVal) => if n = 2 then JVal.undef else JVal.num n)
      2 [] = JVal.undef ∧
    JVal.num 7 ≠ JVal.undef := by
  refine ⟨?_, by decide, by decide⟩
  rfl

/-- C6 (amended): after pushing overrides A, B, C in that order onto any
provider, the stack is the original stack followed by `[A, B, C]` and
`provide()` delegates to C whenever C's result is not `undefined` (an
`undefined` result falls back to the provider's own logic; see the
counterexample); one `resetLastOverriding()` returns C leaving `[A, B]`
pushed, after which `provide()` delegates to B under the same proviso;
`resetOverride()` called at any point returns exactly the currently pushed
overrides in push order and empties the stack, and with the stack empty
`provide` is exactly the provider's own un-overridden logic;
`resetLastOverriding` on an empty stack errors (`none`), while
`resetOverride` on an empty stack returns an empty array. -/
theorem C6_override_stack (Ov : Type) (ovP : Ov → List JVal → JVal)
    (s0 : List Ov) (A B C : Ov) :
    overridePush (overridePush (overridePush s0 A) B) C = s0 ++ [A, B, C] ∧
    (∀ args F w, ovP C args ≠ JVal.undef →
      factoryProvide ovP (s0 ++ [A, B, C]) F args w = .ok (ovP C args, w)) ∧
    (∀ args F cache w, ovP C args ≠ JVal.undef →
      singletonProvide ovP (s0 ++ [A, B, C]) F cache args w =
        .ok (ovP C args, cache, w)) ∧
    (∀ d, ovP C [] ≠ JVal.undef →
      delegateProvide ovP (s0 ++ [A, B, C]) d = ovP C []) ∧
    resetLastOverriding (s0 ++ [A, B, C]) = some (C, s0 ++ [A, B]) ∧
    (∀ args F w, ovP B args ≠ JVal.undef →
      factoryProvide ovP (s0 ++ [A, B]) F args w = .ok (ovP B args, w)) ∧
    (∀ s : List Ov, resetOverride s = (s, [])) ∧
    (∀ F args w, factoryProvide ovP [] F args w = factoryOwn F args w) ∧
    (∀ F cache args w, singletonProvide ovP [] F cache args w =
      if cache = JVal.jsNull then
        match factoryOwn F args w with
        | .error e => .error e
        | .ok (r, w2) => .ok (r, r, w2)
      else .ok (cache, cache, w)) ∧
    (∀ d, delegateProvide ovP [] d = d) ∧
    resetLastOverriding ([] : List Ov) = none ∧
    resetOverride ([] : List Ov) = ([], []) := by
  have habc : s0 ++ [A, B, C] = (s0 ++ [A, B]) ++ [C] := by simp
  have htopC : (s0 ++ [A, B, C]).getLast? = some C := by
    rw [habc]; exact concat_getLast? _ _
  have hab : s0 ++ [A, B] = (s0 ++ [A]) ++ [B] := by simp
  have htopB : (s0 ++ [A, B]).getLast? = some B := by
    rw [hab]; exact concat_getLast? _ _
  refine ⟨by simp [overridePush], ?_, ?_, ?_, ?_, ?_, fun s => rfl, ?_, ?_, ?_, rfl, rfl⟩
  · intro args F w hne
    exact provide_top_factory htopC hne F w
  · intro args F cache w hne
    exact provide_top_singleton htopC hne F cache w
  · intro d hne
    exact provide_top_delegate htopC hne d
  · unfold resetLastOverriding
    rw [htopC, habc, List.dropLast_concat]
  · intro args F w hne
    exact provide_top_factory htopB hne F w
  · intro F args w
    exact factoryProvide_nil ovP F args w
  · intro F cache args w
    exact singletonProvide_nil ovP F cache args w
  · intro d
    exact delegateProvide_nil ovP d

/-- Witness for C6 at a concrete provider and overrides 0, 1, 2. -/
theorem C6_witness :
    overridePush (overridePush (overridePush ([] : List Nat) 0) 1) 2 = [0, 1, 2] ∧
    factoryProvide (fun (n : Nat) (_ : List JVal) => JVal.num n) [0, 1, 2]
      ⟨fun _ => JVal.num 7, []⟩ [] ⟨[], [], []⟩ = .ok (JVal.num 2, ⟨[], [], []⟩) ∧
    resetLastOverriding ([0, 1, 2] : List Nat) = some (2, [0, 1]) ∧
    factoryProvide (fun (n : Nat) (_ : List JVal) => JVal.num n) [0, 1]
      ⟨fun _ => JVal.num 7, []⟩ [] ⟨[], [], []⟩ = .ok (JVal.num 1, ⟨[], [], []⟩) ∧
    resetOverride ([0, 1] : List Nat) = ([0, 1], []) ∧
    factoryProvide (fun (n : Nat) (_ : List JVal) => JVal.num n) []
      ⟨fun _ => JVal.num 7, []⟩ [] ⟨[], [], []⟩ =
      factoryOwn ⟨fun _ => JVal.num 7, []⟩ [] ⟨[], [], []⟩ ∧
    resetLastOverriding ([] : List Nat) = none ∧
    resetOverride ([] : List Nat) = ([], []) := by
  have hc := C6_override_stack Nat (fun n _ => JVal.num n) [] 0 1 2
  exact ⟨hc.1, hc.2.1 [] ⟨fun _ => JVal.num 7, []⟩ ⟨[], [], []⟩ (by decide),
    hc.2.2.2.2.1, hc.2.2.2.2.2.1 [] ⟨fun _ => JVal.num 7, []⟩ ⟨[], [], []⟩ (by decide),
    hc.2.2.2.2.2.2.1 [0, 1],
    hc.2.2.2.2.2.2.2.1 ⟨fun _ => JVal.num 7, []⟩ [] ⟨[], [], []⟩,
    hc.2.2.2.2.2.2.2.2.2.2.1, hc.2.2.2.2.2.2.2.2.2.2.2⟩

/-! ### Claim C3: Extend merge -/

/-- Spec-shaped defaults resolution, following the spec's words: resolve
each listed default exactly once, in order, through `resolveProviders`.
The code's loop is proved equal to this function applied to the defaults
whose keys are absent from the context (`resolveDefaults_filter_eq`). -/
def resolveDefaultsSpec (h : List JObj) (lg : List Nat) :
    List (String × JVal) → List (String × JVal) × List JObj × List Nat
  | [] => ([], h, lg)
  | (k, dv) :: rest =>
    match resolveTop h lg dv with
    | (r, h2, lg2) =>
      match resolveDefaultsSpec h2 lg2 rest with
      | (rs, h3, lg3) => ((k, r) :: rs, h3, lg3)

theorem resolveDefaultsSpec_keys :
    ∀ l h lg, (resolveDefaultsSpec h lg l).1.map Prod.fst = l.map Prod.fst := by
  intro l
  induction l with
  | nil => intro h lg; rfl
  | cons kv rest ih =>
    obtain ⟨k, dv⟩ := kv
    intro h lg
    simp only [resolveDefaultsSpec]
    cases htop : resolveTop h lg dv with
    | mk r p =>
      obtain ⟨h2, lg2⟩ := p
      cases hrec : resolveDefaultsSpec h2 lg2 rest with
      | mk rs q =>
        obtain ⟨h3, lg3⟩ := q
        have := ih h2 lg2
        rw [hrec] at this
        simpa using this

/-- Heap facts for a single top-level resolver call. -/
theorem resolveTop_facts {h : List JObj} {v : JVal} {lg : List Nat}
    {r : JVal} {h2 : List JObj} {lg2 : List Nat}
    (hcl : heapClosedB h = true) (hv : valClosedB h.length v = true)
    (heq : resolveTop h lg v = (r, h2, lg2)) :
    h.length ≤ h2.length ∧ (∀ i, i < h.length → hget h2 i = hget h i) ∧
    heapClosedB h2 = true := by
  obtain ⟨r0, st2, _, htop, hok, _, hev⟩ := resolveTop_spec lg hcl hv
  rw [htop] at heq
  simp only [Prod.mk.injEq] at heq
  obtain ⟨hr, hh, hl⟩ := heq
  subst hh
  exact ⟨hev.1, hev.2.1, hok.1⟩

/-- Heap facts for the spec-shaped defaults resolution. -/
theorem resolveDefaultsSpec_facts :
    ∀ l h lg rs h3 lg3, heapClosedB h = true →
      (∀ p ∈ l, valClosedB h.length p.2 = true) →
      resolveDefaultsSpec h lg l = (rs, h3, lg3) →
      h.length ≤ h3.length ∧ (∀ i, i < h.length → hget h3 i = hget h i) ∧
      heapClosedB h3 = true := by
  intro l
  induction l with
  | nil =>
    intro h lg rs h3 lg3 hcl _ heq
    simp only [resolveDefaultsSpec, Prod.mk.injEq] at heq
    obtain ⟨_, hh, _⟩ := heq
    subst hh
    exact ⟨le_refl _, fun _ _ => rfl, hcl⟩
  | cons kv rest ih =>
    obtain ⟨k, dv⟩ := kv
    intro h lg rs h3 lg3 hcl hvals heq
    simp only [resolveDefaultsSpec] at heq
    cases htop : resolveTop h lg dv with
    | mk r p =>
      obtain ⟨h2, lg2⟩ := p
      rw [htop] at heq
      cases hrec : resolveDefaultsSpec h2 lg2 rest with
      | mk rs2 q =>
        obtain ⟨h4, lg4⟩ := q
        rw [hrec] at heq
        simp only [Prod.mk.injEq] at heq
        obtain ⟨_, hh, _⟩ := heq
        subst hh
        obtain ⟨hlen2, hpre2, hcl2⟩ :=
          resolveTop_facts hcl (hvals (k, dv) (List.mem_cons_self _ _)) htop
        obtain ⟨hlen4, hpre4, hcl4⟩ := ih h2 lg2 rs2 h4 lg4 hcl2
          (fun p hp => valClosedB_mono hlen2 (hvals p (List.mem_cons_of_mem _ hp)))
          hrec
        refine ⟨le_trans hlen2 hlen4, ?_, hcl4⟩
        intro i hi
        rw [hpre4 i (lt_of_lt_of_le hi hlen2), hpre2 i hi]

theorem lk_append_of_not_mem {l1 l2 : List (String × JVal)} {k : String}
    (hk : k ∉ l1.map Prod.fst) : lk (l1 ++ l2) k = lk l2 k := by
  induction l1 with
  | nil => rfl
  | cons p rest ih =>
    obtain ⟨k0, v0⟩ := p
    simp only [List.map_cons, List.mem_cons] at hk
    push_neg at hk
    simp only [List.cons_append, lk_cons]
    rw [if_neg (fun hc => hk.1 hc.symm)]
    exact ih hk.2

/-- With no call argument the context is the empty object literal: no key is
ever "present in context", so the code's loop resolves every default — it
coincides with the spec-shaped resolution of the full list. -/
theorem resolveDefaults_none :
    ∀ l h lg, resolveDefaults h lg none l = .ok (resolveDefaultsSpec h lg l) := by
  intro l
  induction l with
  | nil => intro h lg; rfl
  | cons kv rest ih =>
    obtain ⟨k, dv⟩ := kv
    intro h lg
    simp only [resolveDefaults, keyInContext, resolveDefaultsSpec]
    cases htop : resolveTop h lg dv with
    | mk r p =>
      obtain ⟨h2, lg2⟩ := p
      rw [ih h2 lg2]

/-- The code's `for (const key in defaults)` loop with a record context
equals the spec-shaped resolution of exactly the defaults whose keys are
absent from the context: present keys contribute no resolution work (their
providers are invoked zero times), absent keys are resolved exactly once,
in order. -/
theorem resolveDefaults_filter_eq (c : Nat) (pr : Proto)
    (ctxFields : List (String × JVal)) :
    ∀ (defaults : List (String × JVal)) (h : List JObj) (lg : List Nat),
      heapClosedB h = true →
      hget h c = some (JObj.record pr ctxFields) →
      (∀ p ∈ defaults, valClosedB h.length p.2 = true) →
      resolveDefaults h lg (some (JVal.ref c)) defaults =
        .ok (resolveDefaultsSpec h lg
          (defaults.filter (fun p => decide (p.1 ∉ ctxFields.map Prod.fst)))) := by
  intro defaults
  induction defaults with
  | nil => intro h lg _ _ _; rfl
  | cons kv rest ih =>
    obtain ⟨k, dv⟩ := kv
    intro h lg hcl hctx hvals
    by_cases hmem : k ∈ ctxFields.map Prod.fst
    · have hkey : keyInContext h (some (JVal.ref c)) k = .ok true := by
        simp [keyInContext, hctx, hmem]
      simp only [resolveDefaults, hkey, List.filter_cons]
      rw [if_neg (by simpa using hmem)]
      exact ih h lg hcl hctx (fun p hp => hvals p (List.mem_cons_of_mem _ hp))
    · have hkey : keyInContext h (some (JVal.ref c)) k = .ok false := by
        simp [keyInContext, hctx, hmem]
      simp only [resolveDefaults, hkey, List.filter_cons]
      rw [if_pos (by simpa using hmem)]
      simp only [resolveDefaultsSpec]
      cases htop : resolveTop h lg dv with
      | mk r p =>
        obtain ⟨h2, lg2⟩ := p
        obtain ⟨hlen2, hpre2, hcl2⟩ :=
          resolveTop_facts hcl (hvals (k, dv) (List.mem_cons_self _ _)) htop
        have hctx2 : hget h2 c = some (JObj.record pr ctxFields) := by
          rw [hpre2 c (hget_lt_length hctx)]
          exact hctx
        rw [ih h2 lg2 hcl2 hctx2
          (fun p hp => valClosedB_mono hlen2 (hvals p (List.mem_cons_of_mem _ hp)))]

/-- C3 counterexample: a Factory with `Extend({a: 1})` called as
`provide(null)` throws (the code computes `context = contextArgs[0]` whenever
an argument was supplied and then evaluates `"a" in null`), instead of
treating the nullish context as `{}` as the claim's `callArgs[0] ?? {}`
formula asserts. -/
theorem C3_counterexample :
    factoryProvide (fun (_ : Unit) (_ : List JVal) => JVal.undef) []
      ⟨fun _ => JVal.num 0, [JVal.ref 0]⟩ [JVal.jsNull]
      ⟨[JObj.extend [("a", JVal.num 1)]], [], []⟩ = .error () := rfl

/-- C3 (amended): for every non-overridden Factory whose injected arguments
include an `Extend` wrapper, `provide(...)` calls the target with exactly
the resolved argument list (no prepended call arguments); the `Extend`
argument resolves to a fresh plain record `{ ...resolvedDefaults, ...context }`
where the context is `callArgs[0]` when a call argument was supplied
(a nullish explicit context throws a TypeError when the defaults are
non-empty — see the counterexample) and the empty object when none was;
keys present in a record context win every collision, a default for a key
present in the context is never resolved (zero provider invocations), and
each default for an absent key is resolved exactly once, in order. -/
theorem C3_extend_merge :
    (∀ (Ov : Type) (ovP : Ov → List JVal → JVal) (F : FactoryData)
        (args : List JVal) (w : PW) (ra : List JVal) (h2 : List JObj)
        (lg2 : List Nat),
      F.injectedArgs.any (fun v => isExtendVal w.heap v) = true →
      resolveArgList w.heap w.plog F.injectedArgs args = .ok (ra, h2, lg2) →
      factoryProvide ovP [] F args w = .ok (F.target ra, ⟨h2, lg2, w.tlog ++ [ra]⟩)) ∧
    (∀ (c : Nat) (pr : Proto) (ctxFields defaults : List (String × JVal))
        (h : List JObj) (lg : List Nat),
      heapClosedB h = true →
      hget h c = some (JObj.record pr ctxFields) →
      (∀ p ∈ defaults, valClosedB h.length p.2 = true) →
      resolveDefaults h lg (some (JVal.ref c)) defaults =
        .ok (resolveDefaultsSpec h lg
          (defaults.filter (fun p => decide (p.1 ∉ ctxFields.map Prod.fst))))) ∧
    (∀ (c : Nat) (pr : Proto) (ctxFields defaults : List (String × JVal))
        (h : List JObj) (lg : List Nat) (rest : List JVal)
        (rs : List (String × JVal)) (h3 : List JObj) (lg3 : List Nat),
      heapClosedB h = true →
      hget h c = some (JObj.record pr ctxFields) →
      (∀ p ∈ defaults, valClosedB h.length p.2 = true) →
      resolveDefaultsSpec h lg
        (defaults.filter (fun p => decide (p.1 ∉ ctxFields.map Prod.fst))) =
        (rs, h3, lg3) →
      resolveExtendArg h lg defaults (JVal.ref c :: rest) =
        .ok (JVal.ref h3.length,
          h3 ++ [JObj.record Proto.plain (rs ++ ctxFields)], lg3) ∧
      (∀ k, k ∈ ctxFields.map Prod.fst → lk (rs ++ ctxFields) k = lk ctxFields k)) ∧
    (∀ (defaults : List (String × JVal)) (h : List JObj) (lg : List Nat),
      resolveExtendArg h lg defaults [] =
        (match resolveDefaultsSpec h lg defaults with
         | (rs, h3, lg3) =>
           .ok (JVal.ref h3.length, h3 ++ [JObj.record Proto.plain rs], lg3))) ∧
    (∀ (h : List JObj) (lg : List Nat) (k : String) (dv : JVal)
        (rest : List (String × JVal)) (rest2 : List JVal),
      resolveExtendArg h lg ((k, dv) :: rest) (JVal.jsNull :: rest2) = .error () ∧
      resolveExtendArg h lg ((k, dv) :: rest) (JVal.undef :: rest2) = .error ()) := by
  refine ⟨?_, ?_, ?_, ?_, ?_⟩
  · intro Ov ovP F args w ra h2 lg2 hH hres
    rw [factoryProvide_nil]
    simp only [factoryOwn, hH, hres, if_true]
  · intro c pr ctxFields defaults h lg hcl hctx hvals
    exact resolveDefaults_filter_eq c pr ctxFields defaults h lg hcl hctx hvals
  · intro c pr ctxFields defaults h lg rest rs h3 lg3 hcl hctx hvals hspec
    have hfvals : ∀ p ∈ defaults.filter
        (fun p => decide (p.1 ∉ ctxFields.map Prod.fst)),
        valClosedB h.length p.2 = true :=
      fun p hp => hvals p (List.mem_of_mem_filter hp)
    obtain ⟨hlen3, hpre3, _⟩ :=
      resolveDefaultsSpec_facts _ h lg rs h3 lg3 hcl hfvals hspec
    have hctx3 : hget h3 c = some (JObj.record pr ctxFields) := by
      rw [hpre3 c (hget_lt_length hctx)]
      exact hctx
    constructor
    · simp only [resolveExtendArg, List.head?]
      rw [resolveDefaults_filter_eq c pr ctxFields defaults h lg hcl hctx hvals,
        hspec]
      simp [spreadFields, hctx3]
    · intro k hk
      have hkeys : rs.map Prod.fst =
          (defaults.filter (fun p => decide (p.1 ∉ ctxFields.map Prod.fst))).map
            Prod.fst := by
        have := resolveDefaultsSpec_keys
          (defaults.filter (fun p => decide (p.1 ∉ ctxFields.map Prod.fst))) h lg
        rw [hspec] at this
        exact this
      refine lk_append_of_not_mem ?_
      rw [hkeys]
      intro hmem
      simp only [List.mem_map] at hmem
      obtain ⟨p, hp, hpk⟩ := hmem
      have := List.of_mem_filter hp
      rw [hpk] at this
      simp only [decide_eq_true_eq] at this
      exact this (List.mem_map.mp hk)
  · intro defaults h lg
    simp only [resolveExtendArg, List.head?]
    rw [resolveDefaults_none]
    cases hrec : resolveDefaultsSpec h lg defaults with
    | mk rs q =>
      obtain ⟨h3, lg3⟩ := q
      simp [spreadFields]
  · intro h lg k dv rest rest2
    exact ⟨rfl, rfl⟩

/-- Concrete heap for the C3 witness: a provider resolving to 9, an
`Extend({a: providerX, b: 1})` wrapper, and the context record
`{b: 2, c: 3}`. -/
def extHeap : List JObj :=
  [JObj.provider (JVal.num 9),
   JObj.extend [("a", JVal.ref 0), ("b", JVal.num 1)],
   JObj.record Proto.plain [("b", JVal.num 2), ("c", JVal.num 3)]]

/-- Witness for C3: resolving `Extend({a: providerX, b: 1})` with context
`{b: 2, c: 3}` yields `{a: 9, b: 2, c: 3}` with `providerX` invoked exactly
once (log `[0]`), the default for the overridden key `b` never resolved, and
the target called with exactly the merged argument. -/
theorem C3_witness :
    resolveDefaults extHeap [] (some (JVal.ref 2))
        [("a", JVal.ref 0), ("b", JVal.num 1)] =
      .ok (resolveDefaultsSpec extHeap []
        ([("a", JVal.ref 0), ("b", JVal.num 1)].filter
          (fun p => decide (p.1 ∉
            ([("b", JVal.num 2), ("c", JVal.num 3)] :
              List (String × JVal)).map Prod.fst)))) ∧
    resolveExtendArg extHeap [] [("a", JVal.ref 0), ("b", JVal.num 1)]
        [JVal.ref 2] =
      .ok (JVal.ref 3,
        extHeap ++ [JObj.record Proto.plain
          [("a", JVal.num 9), ("b", JVal.num 2), ("c", JVal.num 3)]], [0]) ∧
    lk ([("a", JVal.num 9), ("b", JVal.num 2), ("c", JVal.num 3)] :
        List (String × JVal)) "b" =
      lk ([("b", JVal.num 2), ("c", JVal.num 3)] : List (String × JVal)) "b" ∧
    factoryProvide (fun (_ : Unit) (_ : List JVal) => JVal.undef) []
      ⟨fun _ => JVal.num 0, [JVal.ref 1]⟩ [JVal.ref 2] ⟨extHeap, [], []⟩ =
      .ok (JVal.num 0,
        ⟨extHeap ++ [JObj.record Proto.plain
          [("a", JVal.num 9), ("b", JVal.num 2), ("c", JVal.num 3)]],
         [0], [[JVal.ref 3]]⟩) ∧
    resolveExtendArg extHeap [] [("a", JVal.ref 0)] [] =
      (match resolveDefaultsSpec extHeap [] [("a", JVal.ref 0)] with
       | (rs, h3, lg3) =>
         .ok (JVal.ref h3.length, h3 ++ [JObj.record Proto.plain rs], lg3)) ∧
    resolveExtendArg extHeap [] [("a", JVal.num 1)] [JVal.jsNull] = .error () := by
  have hspec : resolveDefaultsSpec extHeap []
      ([("a", JVal.ref 0), ("b", JVal.num 1)].filter
        (fun p => decide (p.1 ∉
          ([("b", JVal.num 2), ("c", JVal.num 3)] :
            List (String × JVal)).map Prod.fst))) =
      ([("a", JVal.num 9)], extHeap, [0]) := by
    simp [resolveDefaultsSpec, resolveTop, resolveVal, extHeap, hget, isProviderObj]
  have hc := (C3_extend_merge.2.2.1 2 Proto.plain
    [("b", JVal.num 2), ("c", JVal.num 3)]
    [("a", JVal.ref 0), ("b", JVal.num 1)] extHeap [] []
    [("a", JVal.num 9)] extHeap [0]
    (by decide) (by decide) (by decide) hspec)
  have hres : resolveArgList extHeap [] [JVal.ref 1] [JVal.ref 2] =
      .ok ([JVal.ref 3],
        extHeap ++ [JObj.record Proto.plain
          [("a", JVal.num 9), ("b", JVal.num 2), ("c", JVal.num 3)]], [0]) := by
    simp only [resolveArgList, resolveArg]
    rw [show hget extHeap 1 =
      some (JObj.extend [("a", JVal.ref 0), ("b", JVal.num 1)]) from rfl]
    dsimp only
    rw [hc.1]
    rfl
  refine ⟨?_, ?_, ?_, ?_, ?_, ?_⟩
  · exact C3_extend_merge.2.1 2 Proto.plain
      [("b", JVal.num 2), ("c", JVal.num 3)]
      [("a", JVal.ref 0), ("b", JVal.num 1)] extHeap []
      (by decide) (by decide) (by decide)
  · exact hc.1
  · exact hc.2 "b" (by decide)
  · exact C3_extend_merge.1 Unit (fun _ _ => JVal.undef)
      ⟨fun _ => JVal.num 0, [JVal.ref 1]⟩ [JVal.ref 2] ⟨extHeap, [], []⟩
      [JVal.ref 3]
      (extHeap ++ [JObj.record Proto.plain
        [("a", JVal.num 9), ("b", JVal.num 2), ("c", JVal.num 3)]]) [0]
      (by decide) hres
  · exact C3_extend_merge.2.2.2.1 [("a", JVal.ref 0)] extHeap []
  · exact (C3_extend_merge.2.2.2.2 extHeap [] "a" (JVal.num 1) [] []).1

/-! ### Injection marker and wiring engine (src/inject.ts) -/

/-- A provider-valued container property, abstracted to the marker check
(`isProviderLike`: the hidden `PROVIDER_SYMBOL` set to `true`) and the value
its `provide()` returns (providers' internal state is out of scope for the
wiring claims). -/
structure CProv where
  marker : Bool
  result : JVal
deriving DecidableEq, Repr

/-- A container instance: its identity and its own properties. -/
structure PContainer where
  cid : Nat
  props : List (String × CProv)
deriving DecidableEq, Repr

/-- A recorded decoration site `(target, propertyKey, parameterIndex,
token)`.  Tokens are memoised per (container class, property key); with one
container class per `createInject` call a token is identified with its
property key.  (The secondary provider-as-value tokens are outside the
modelled fragment — no claim exercises them.) -/
structure Site where
  target : Nat
  propertyKey : String
  paramIndex : Nat
  token : String
deriving DecidableEq, Repr

/-- A function object sitting in a method slot: either an original method or
an injection wrapper (with its own identity `wrapId`, the function it
replaced, and the decoration sites it closed over). -/
inductive FnRef where
  | original (fnId : Nat) : FnRef
  | wrapper (wrapId : Nat) (inner : FnRef) (sites : List Site) : FnRef
deriving DecidableEq, Repr

/-- Mutable state of one `createInject` closure plus the method slots it
patches: the insertion-ordered set `wiredContainers`, the
`wrappedMethods` registry, the method table (newest entry first), and a
fresh-function-identity counter modelling allocation of wrapper closures. -/
structure WireSt where
  wired : List PContainer
  wrapped : List (Nat × String)
  table : List ((Nat × String) × FnRef)
  nextFnId : Nat
deriving DecidableEq, Repr

/-- JavaScript `Set.add`: adding an element already present keeps its
original insertion position; a new element goes to the end. -/
def addSet (l : List PContainer) (c : PContainer) : List PContainer :=
  if c ∈ l then l else l ++ [c]

/-- `findProviderByToken`: scan the container's own properties; a key whose
primary token matches returns the property when it passes the
`isProviderLike` marker check, otherwise the scan continues. -/
def findProviderByToken : List (String × CProv) → String → Option CProv
  | [], _ => none
  | (k, p) :: rest, tok =>
    if k = tok then
      if p.marker then some p else findProviderByToken rest tok
    else findProviderByToken rest tok

/-- `Map.set` semantics used to build `tokensByIndex`: overwriting an
existing key keeps its original position. -/
def mapSet (l : List (Nat × String)) (i : Nat) (tok : String) :
    List (Nat × String) :=
  if i ∈ l.map Prod.fst then l.map (fun p => if p.1 = i then (i, tok) else p)
  else l ++ [(i, tok)]

/-- `tokensByIndex` for a group of sites, built in site order. -/
def buildTokens (sites : List Site) : List (Nat × String) :=
  sites.foldl (fun acc s => mapSet acc s.paramIndex s.token) []

/-- Read `args[i]` (JS indexing: `undefined` beyond the end). -/
def getArg : List JVal → Nat → JVal
  | [], _ => JVal.undef
  | v :: _, 0 => v
  | _ :: t, n + 1 => getArg t n

/-- `newArgs[i] = v` on a JS array: assigning past the end fills the holes,
which read back as `undefined`. -/
def padSet : List JVal → Nat → JVal → List JVal
  | [], 0, v => [v]
  | [], n + 1, v => JVal.undef :: padSet [] n v
  | _ :: t, 0, v => v :: t
  | x :: t, n + 1, v => x :: padSet t n v

/-- `paramIndex >= newArgs.length || newArgs[paramIndex] === undefined`. -/
def argMissing (args : List JVal) (i : Nat) : Bool :=
  decide (args.length ≤ i) || decide (getArg args i = JVal.undef)

/-- One iteration of the wrapper's injection loop. -/
def injectStep (c : PContainer) (acc : List JVal) (it : Nat × String) :
    List JVal :=
  if argMissing acc it.1 then
    match findProviderByToken c.props it.2 with
    | some p => padSet acc it.1 p.result
    | none => acc
  else acc

/-- The wrapper body: take the first wired container (FIFO order); for every
decorated parameter index whose argument is missing or strictly `undefined`,
look the token up on that container and substitute the provider's resolved
value; without an active container the arguments pass through unchanged. -/
def injectArgs (wired : List PContainer) (sites : List Site)
    (args : List JVal) : List JVal :=
  match wired.head? with
  | none => args
  | some c => (buildTokens sites).foldl (injectStep c) args

/-- Distinct `(target, propertyKey)` groups, in first-occurrence order. -/
def groupKeys (sites : List Site) : List (Nat × String) :=
  sites.foldl
    (fun acc s =>
      if (s.target, s.propertyKey) ∈ acc then acc
      else acc ++ [(s.target, s.propertyKey)]) []

/-- The sites of one `(target, propertyKey)` group. -/
def sitesFor (sites : List Site) (tk : Nat × String) : List Site :=
  sites.filter (fun s => decide (s.target = tk.1 ∧ s.propertyKey = tk.2))

/-- `wire`'s per-group step: skip a group already wrapped or whose slot does
not hold a function; otherwise replace the method with a freshly allocated
wrapper closing over the original function and the group's sites. -/
def wireStep (sites : List Site) (st : WireSt) (tk : Nat × String) : WireSt :=
  if tk ∈ st.wrapped then st
  else
    match lk st.table tk with
    | none => st
    | some f =>
      { st with
        table := (tk, FnRef.wrapper st.nextFnId f (sitesFor sites tk)) :: st.table,
        wrapped := tk :: st.wrapped,
        nextFnId := st.nextFnId + 1 }

/-- `wire(container)`: add to the wired set first, then wrap every not-yet
wrapped decorated method group. -/
def wire (sites : List Site) (c : PContainer) (st : WireSt) : WireSt :=
  (groupKeys sites).foldl (wireStep sites) { st with wired := addSet st.wired c }

/-- `unwire(container)`: remove from the wired set; the method wrapping is
left in place. -/
def unwire (c : PContainer) (st : WireSt) : WireSt :=
  { st with wired := st.wired.erase c }

/-- Invoke the method stored at `(target, propertyKey)` with `args`:
a wrapper forwards the (possibly patched) argument list to the function it
wrapped; an original method receives the arguments unchanged.  Returns the
invoked function and the forwarded argument list. -/
def callMethod (st : WireSt) (tk : Nat × String) (args : List JVal) :
    Option (FnRef × List JVal) :=
  match lk st.table tk with
  | some (FnRef.wrapper _ inner sites) => some (inner, injectArgs st.wired sites args)
  | some f => some (f, args)
  | none => none

/-! ### Wiring engine lemmas -/

theorem getArg_of_le : ∀ (l : List JVal) (i : Nat), l.length ≤ i →
    getArg l i = JVal.undef := by
  intro l
  induction l with
  | nil => intro i _; cases i <;> rfl
  | cons v t ih =>
    intro i hi
    cases i with
    | zero => simp at hi
    | succ n => exact ih n (by simpa using hi)

theorem argMissing_iff {args : List JVal} {i : Nat} :
    argMissing args i = true ↔ getArg args i = JVal.undef := by
  constructor
  · intro h
    simp only [argMissing, Bool.or_eq_true, decide_eq_true_eq] at h
    rcases h with h | h
    · exact getArg_of_le args i h
    · exact h
  · intro h
    simp [argMissing, h]

theorem getArg_padSet_self : ∀ (l : List JVal) (i : Nat) (v : JVal),
    getArg (padSet l i v) i = v := by
  intro l
  induction l with
  | nil =>
    intro i v
    induction i with
    | zero => rfl
    | succ n ih => simpa [padSet, getArg] using ih
  | cons x t ih =>
    intro i v
    cases i with
    | zero => rfl
    | succ n => simpa [padSet, getArg] using ih n v

theorem getArg_padSet_ne : ∀ (l : List JVal) (i j : Nat) (v : JVal), i ≠ j →
    getArg (padSet l j v) i = getArg l i := by
  intro l
  induction l with
  | nil =>
    intro i j v hne
    induction j generalizing i with
    | zero =>
      cases i with
      | zero => exact absurd rfl hne
      | succ m => rfl
    | succ n ih =>
      cases i with
      | zero => rfl
      | succ m =>
        simp only [padSet, getArg]
        have := ih m (fun hc => hne (by simp [hc]))
        simpa [getArg] using this
  | cons x t ih =>
    intro i j v hne
    cases j with
    | zero =>
      cases i with
      | zero => exact absurd rfl hne
      | succ m => rfl
    | succ n =>
      cases i with
      | zero => rfl
      | succ m => simpa [padSet, getArg] using ih m n v (fun hc => hne (by simp [hc]))

theorem injectStep_getArg_ne (c : PContainer) (acc : List JVal)
    (it : Nat × String) (i : Nat) (hne : i ≠ it.1) :
    getArg (injectStep c acc it) i = getArg acc i := by
  unfold injectStep
  split
  · split
    · exact getArg_padSet_ne acc i it.1 _ hne
    · rfl
  · rfl

theorem injectFold_preserve (c : PContainer) :
    ∀ (l : List (Nat × String)) (acc : List JVal) (i : Nat),
      (∀ q ∈ l, q.1 ≠ i) →
      getArg (l.foldl (injectStep c) acc) i = getArg acc i := by
  intro l
  induction l with
  | nil => intro acc i _; rfl
  | cons q rest ih =>
    intro acc i hq
    simp only [List.foldl_cons]
    rw [ih _ i (fun q2 hq2 => hq q2 (List.mem_cons_of_mem _ hq2))]
    exact injectStep_getArg_ne c acc q i
      (fun hc => hq q (List.mem_cons_self _ _) hc.symm)

theorem injectFold_hit (c : PContainer) :
    ∀ (l : List (Nat × String)) (acc : List JVal) (i : Nat) (tok : String)
      (p : CProv),
      (l.map Prod.fst).Nodup →
      (i, tok) ∈ l →
      getArg acc i = JVal.undef →
      findProviderByToken c.props tok = some p →
      getArg (l.foldl (injectStep c) acc) i = p.result := by
  intro l
  induction l with
  | nil => intro acc i tok p _ hmem; simp at hmem
  | cons q rest ih =>
    obtain ⟨j, tk0⟩ := q
    intro acc i tok p hnd hmem hmiss hfind
    simp only [List.map_cons, List.nodup_cons] at hnd
    obtain ⟨hjrest, hndrest⟩ := hnd
    rcases List.mem_cons.mp hmem with hq | hq
    · simp only [Prod.mk.injEq] at hq
      obtain ⟨hj, htk⟩ := hq
      subst hj; subst htk
      simp only [List.foldl_cons]
      have hstep : injectStep c acc (i, tok) = padSet acc i p.result := by
        unfold injectStep
        rw [if_pos (argMissing_iff.mpr hmiss)]
        simp [hfind]
      rw [hstep]
      rw [injectFold_preserve c rest _ i ?_]
      · exact getArg_padSet_self acc i p.result
      · intro q2 hq2 hc
        exact hjrest (by simpa [hc] using List.mem_map_of_mem Prod.fst hq2)
    · have hji : j ≠ i := by
        intro hc
        subst hc
        exact hjrest (by simpa using List.mem_map_of_mem Prod.fst hq)
      simp only [List.foldl_cons]
      refine ih _ i tok p hndrest hq ?_ hfind
      rw [injectStep_getArg_ne c acc (j, tk0) i (fun hc => hji hc.symm)]
      exact hmiss

theorem mapSet_keys_nodup {l : List (Nat × String)} {i : Nat} {tok : String}
    (h : (l.map Prod.fst).Nodup) : ((mapSet l i tok).map Prod.fst).Nodup := by
  unfold mapSet
  split
  · have hkeys : (l.map (fun p => if p.1 = i then (i, tok) else p)).map Prod.fst =
        l.map Prod.fst := by
      rw [List.map_map]
      refine List.map_congr_left ?_
      intro p _
      by_cases hp : p.1 = i
      · simp [Function.comp, hp]
      · simp [Function.comp, hp]
    rw [hkeys]
    exact h
  · rename_i hnm
    simp only [List.map_append, List.map_cons, List.map_nil]
    rw [List.nodup_append]
    refine ⟨h, List.nodup_singleton i, ?_⟩
    intro a ha hai
    simp only [List.mem_singleton] at hai
    subst hai
    exact hnm ha

theorem buildTokens_nodup (sites : List Site) :
    ((buildTokens sites).map Prod.fst).Nodup := by
  suffices hgen : ∀ (l : List Site) (acc : List (Nat × String)),
      (acc.map Prod.fst).Nodup →
      ((l.foldl (fun acc s => mapSet acc s.paramIndex s.token) acc).map
        Prod.fst).Nodup by
    exact hgen sites [] (by simp)
  intro l
  induction l with
  | nil => intro acc h; exact h
  | cons s rest ih =>
    intro acc h
    exact ih _ (mapSet_keys_nodup h)

theorem groupKeys_nodup (sites : List Site) : (groupKeys sites).Nodup := by
  suffices hgen : ∀ (l : List Site) (acc : List (Nat × String)), acc.Nodup →
      (l.foldl (fun acc s =>
        if (s.target, s.propertyKey) ∈ acc then acc
        else acc ++ [(s.target, s.propertyKey)]) acc).Nodup by
    exact hgen sites [] (by simp)
  intro l
  induction l with
  | nil => intro acc h; exact h
  | cons s rest ih =>
    intro acc h
    refine ih _ ?_
    dsimp only
    split
    · exact h
    · rename_i hnm
      rw [List.nodup_append]
      refine ⟨h, List.nodup_singleton _, ?_⟩
      intro a ha hai
      simp only [List.mem_singleton] at hai
      subst hai
      exact hnm ha

theorem wireStep_wired (sites : List Site) (st : WireSt) (tk : Nat × String) :
    (wireStep sites st tk).wired = st.wired := by
  unfold wireStep
  split
  · rfl
  · split <;> rfl

theorem wireFold_wired (sites : List Site) :
    ∀ (l : List (Nat × String)) (st : WireSt),
      (l.foldl (wireStep sites) st).wired = st.wired := by
  intro l
  induction l with
  | nil => intro st; rfl
  | cons tk rest ih =>
    intro st
    simp only [List.foldl_cons]
    rw [ih, wireStep_wired]

theorem wireStep_wrapped_mono (sites : List Site) (st : WireSt)
    (tk tk2 : Nat × String) (h : tk2 ∈ st.wrapped) :
    tk2 ∈ (wireStep sites st tk).wrapped := by
  unfold wireStep
  split
  · exact h
  · split
    · exact h
    · exact List.mem_cons_of_mem _ h

theorem wireFold_wrapped_mono (sites : List Site) :
    ∀ (l : List (Nat × String)) (st : WireSt) (tk2 : Nat × String),
      tk2 ∈ st.wrapped → tk2 ∈ (l.foldl (wireStep sites) st).wrapped := by
  intro l
  induction l with
  | nil => intro st tk2 h; exact h
  | cons tk rest ih =>
    intro st tk2 h
    exact ih _ tk2 (wireStep_wrapped_mono sites st tk tk2 h)

theorem wireStep_table_ne (sites : List Site) (st : WireSt)
    (tk tk2 : Nat × String) (hne : tk2 ≠ tk) :
    lk (wireStep sites st tk).table tk2 = lk st.table tk2 := by
  unfold wireStep
  split
  · rfl
  · split
    · rfl
    · simp only [lk_cons]
      rw [if_neg (fun hc => hne hc.symm)]

theorem wireStep_wrapped_ne (sites : List Site) (st : WireSt)
    (tk tk2 : Nat × String) (hne : tk2 ≠ tk) :
    (tk2 ∈ (wireStep sites st tk).wrapped ↔ tk2 ∈ st.wrapped) := by
  unfold wireStep
  split
  · exact Iff.rfl
  · split
    · exact Iff.rfl
    · simp only [List.mem_cons]
      constructor
      · intro h
        rcases h with h | h
        · exact absurd h hne
        · exact h
      · intro h
        exact Or.inr h

theorem wireFold_table_ne (sites : List Site) :
    ∀ (l : List (Nat × String)) (st : WireSt) (tk2 : Nat × String),
      tk2 ∉ l →
      lk (l.foldl (wireStep sites) st).table tk2 = lk st.table tk2 := by
  intro l
  induction l with
  | nil => intro st tk2 _; rfl
  | cons tk rest ih =>
    intro st tk2 hnm
    simp only [List.mem_cons] at hnm
    push_neg at hnm
    simp only [List.foldl_cons]
    rw [ih _ tk2 hnm.2, wireStep_table_ne sites st tk tk2 hnm.1]

theorem wireFold_wrapped_ne (sites : List Site) :
    ∀ (l : List (Nat × String)) (st : WireSt) (tk2 : Nat × String),
      tk2 ∉ l →
      (tk2 ∈ (l.foldl (wireStep sites) st).wrapped ↔ tk2 ∈ st.wrapped) := by
  intro l
  induction l with
  | nil => intro st tk2 _; exact Iff.rfl
  | cons tk rest ih =>
    intro st tk2 hnm
    simp only [List.mem_cons] at hnm
    push_neg at hnm
    simp only [List.foldl_cons]
    rw [ih _ tk2 hnm.2, wireStep_wrapped_ne sites st tk tk2 hnm.1]

theorem wireFold_install (sites : List Site) :
    ∀ (l : List (Nat × String)) (st : WireSt) (tk : Nat × String) (f : FnRef),
      l.Nodup → tk ∈ l → tk ∉ st.wrapped → lk st.table tk = some f →
      ∃ wid, lk (l.foldl (wireStep sites) st).table tk =
        some (FnRef.wrapper wid f (sitesFor sites tk)) := by
  intro l
  induction l with
  | nil => intro st tk f _ hmem; simp at hmem
  | cons tk0 rest ih =>
    intro st tk f hnd hmem hwr htab
    simp only [List.nodup_cons] at hnd
    obtain ⟨hnr, hndr⟩ := hnd
    rcases List.mem_cons.mp hmem with hq | hq
    · subst hq
      simp only [List.foldl_cons]
      have hstep : lk (wireStep sites st tk).table tk =
          some (FnRef.wrapper st.nextFnId f (sitesFor sites tk)) := by
        unfold wireStep
        rw [if_neg hwr, htab]
        simp [lk_cons]
      rw [wireFold_table_ne sites rest _ tk hnr, hstep]
      exact ⟨st.nextFnId, rfl⟩
    · have hne : tk ≠ tk0 := fun hc => hnr (hc ▸ hq)
      simp only [List.foldl_cons]
      refine ih _ tk f hndr hq ?_ ?_
      · exact fun hc => hwr ((wireStep_wrapped_ne sites st tk0 tk hne).mp hc)
      · rw [wireStep_table_ne sites st tk0 tk hne]
        exact htab

theorem wireFold_establish (sites : List Site) :
    ∀ (l : List (Nat × String)) (st : WireSt), l.Nodup →
      ∀ tk ∈ l, tk ∈ (l.foldl (wireStep sites) st).wrapped ∨
        lk (l.foldl (wireStep sites) st).table tk = none := by
  intro l
  induction l with
  | nil => intro st _ tk hmem; simp at hmem
  | cons tk0 rest ih =>
    intro st hnd tk hmem
    simp only [List.nodup_cons] at hnd
    obtain ⟨hnr, hndr⟩ := hnd
    simp only [List.foldl_cons]
    rcases List.mem_cons.mp hmem with hq | hq
    · subst hq
      by_cases hwr : tk ∈ st.wrapped
      · left
        exact wireFold_wrapped_mono sites rest _ tk
          (wireStep_wrapped_mono sites st tk tk hwr)
      · cases htab : lk st.table tk with
        | none =>
          right
          rw [wireFold_table_ne sites rest _ tk hnr]
          unfold wireStep
          rw [if_neg hwr, htab]
          dsimp only
          exact htab
        | some f =>
          left
          refine wireFold_wrapped_mono sites rest _ tk ?_
          unfold wireStep
          rw [if_neg hwr, htab]
          exact List.mem_cons_self _ _
    · exact ih _ hndr tk hq

theorem wireFold_noop (sites : List Site) :
    ∀ (l : List (Nat × String)) (st : WireSt),
      (∀ tk ∈ l, tk ∈ st.wrapped ∨ lk st.table tk = none) →
      l.foldl (wireStep sites) st = st := by
  intro l
  induction l with
  | nil => intro st _; rfl
  | cons tk0 rest ih =>
    intro st hprop
    simp only [List.foldl_cons]
    have hstep : wireStep sites st tk0 = st := by
      rcases hprop tk0 (List.mem_cons_self _ _) with h | h
      · unfold wireStep
        rw [if_pos h]
      · unfold wireStep
        split
        · rfl
        · rw [h]
    rw [hstep]
    exact ih st (fun tk hm => hprop tk (List.mem_cons_of_mem _ hm))

theorem wire_wired (sites : List Site) (c : PContainer) (st : WireSt) :
    (wire sites c st).wired = addSet st.wired c := by
  unfold wire
  rw [wireFold_wired]

/-- Re-wiring after a completed `wire` leaves the method table unchanged:
every decorated group is already wrapped or has no function to wrap. -/
theorem wire_rewire_eq (sites : List Site) (c c2 : PContainer) (st : WireSt) :
    (wire sites c2 (wire sites c st)).table = (wire sites c st).table ∧
    (wire sites c2 (wire sites c st)).wrapped = (wire sites c st).wrapped := by
  have hprop : ∀ tk ∈ groupKeys sites,
      tk ∈ ({ wire sites c st with
              wired := addSet (wire sites c st).wired c2 } : WireSt).wrapped ∨
      lk ({ wire sites c st with
            wired := addSet (wire sites c st).wired c2 } : WireSt).table tk =
        none := by
    intro tk htk
    exact wireFold_establish sites (groupKeys sites)
      { st with wired := addSet st.wired c } (groupKeys_nodup sites) tk htk
  have hnoop := wireFold_noop sites (groupKeys sites)
    { wire sites c st with wired := addSet (wire sites c st).wired c2 } hprop
  have ht := congrArg WireSt.table hnoop
  have hwp := congrArg WireSt.wrapped hnoop
  exact ⟨ht, hwp⟩

theorem injectFold_noop (c : PContainer) :
    ∀ (l : List (Nat × String)) (acc : List JVal),
      (∀ q ∈ l, findProviderByToken c.props q.2 = none) →
      l.foldl (injectStep c) acc = acc := by
  intro l
  induction l with
  | nil => intro acc _; rfl
  | cons q rest ih =>
    intro acc hq
    simp only [List.foldl_cons]
    have hstep : injectStep c acc q = acc := by
      unfold injectStep
      split
      · rw [hq q (List.mem_cons_self _ _)]
      · rfl
    rw [hstep]
    exact ih acc (fun q2 hq2 => hq q2 (List.mem_cons_of_mem _ hq2))

/-! ### Claim C4 -/

/-- C4: when containers c1 and then c2 are wired in that order through the
same `createInject` result, a decorated method whose argument at a decorated
index is missing or strictly `undefined` resolves that argument from c1 —
the earliest-wired currently-active container — not from c2. -/
theorem C4_fifo_precedence (sites : List Site) (c1 c2 : PContainer)
    (st0 : WireSt) (tk : Nat × String) (f0 : Nat) (args : List JVal)
    (i : Nat) (tok : String) (p1 p2 : CProv)
    (hw0 : st0.wired = []) (hne : c1 ≠ c2)
    (hgrp : tk ∈ groupKeys sites) (hwr0 : tk ∉ st0.wrapped)
    (htab0 : lk st0.table tk = some (FnRef.original f0))
    (hmem : (i, tok) ∈ buildTokens (sitesFor sites tk))
    (hmiss : argMissing args i = true)
    (hf1 : findProviderByToken c1.props tok = some p1)
    (hf2 : findProviderByToken c2.props tok = some p2) :
    (wire sites c2 (wire sites c1 st0)).wired = [c1, c2] ∧
    ∃ wid,
      lk (wire sites c2 (wire sites c1 st0)).table tk =
        some (FnRef.wrapper wid (FnRef.original f0) (sitesFor sites tk)) ∧
      callMethod (wire sites c2 (wire sites c1 st0)) tk args =
        some (FnRef.original f0, injectArgs [c1, c2] (sitesFor sites tk) args) ∧
      getArg (injectArgs [c1, c2] (sitesFor sites tk) args) i = p1.result ∧
      (p1.result ≠ p2.result →
        getArg (injectArgs [c1, c2] (sitesFor sites tk) args) i ≠ p2.result) := by
  have hc21 : c2 ≠ c1 := Ne.symm hne
  have hwired : (wire sites c2 (wire sites c1 st0)).wired = [c1, c2] := by
    rw [wire_wired, wire_wired, hw0]
    simp [addSet, hc21]
  obtain ⟨wid, hw⟩ := wireFold_install sites (groupKeys sites)
    { st0 with wired := addSet st0.wired c1 } tk (FnRef.original f0)
    (groupKeys_nodup sites) hgrp hwr0 htab0
  have htab2 : lk (wire sites c2 (wire sites c1 st0)).table tk =
      some (FnRef.wrapper wid (FnRef.original f0) (sitesFor sites tk)) := by
    rw [(wire_rewire_eq sites c1 c2 st0).1]
    exact hw
  have hhit : getArg (injectArgs [c1, c2] (sitesFor sites tk) args) i =
      p1.result := by
    unfold injectArgs
    simp only [List.head?]
    exact injectFold_hit c1 (buildTokens (sitesFor sites tk)) args i tok p1
      (buildTokens_nodup _) hmem (argMissing_iff.mp hmiss) hf1
  refine ⟨hwired, wid, htab2, ?_, hhit, ?_⟩
  · unfold callMethod
    rw [htab2, hwired]
  · intro hdiff
    rw [hhit]
    exact hdiff

/-- Witness for C4 at one decorated site and two one-provider containers. -/
theorem C4_witness :
    (⟨[], [], [((0, "m"), FnRef.original 0)], 100⟩ : WireSt).wired = [] ∧
    (⟨1, [("svc", ⟨true, JVal.num 1⟩)]⟩ : PContainer) ≠
      ⟨2, [("svc", ⟨true, JVal.num 2⟩)]⟩ ∧
    (wire [⟨0, "m", 0, "svc"⟩] ⟨2, [("svc", ⟨true, JVal.num 2⟩)]⟩
      (wire [⟨0, "m", 0, "svc"⟩] ⟨1, [("svc", ⟨true, JVal.num 1⟩)]⟩
        ⟨[], [], [((0, "m"), FnRef.original 0)], 100⟩)).wired =
      [⟨1, [("svc", ⟨true, JVal.num 1⟩)]⟩, ⟨2, [("svc", ⟨true, JVal.num 2⟩)]⟩] ∧
    ∃ wid,
      lk (wire [⟨0, "m", 0, "svc"⟩] ⟨2, [("svc", ⟨true, JVal.num 2⟩)]⟩
        (wire [⟨0, "m", 0, "svc"⟩] ⟨1, [("svc", ⟨true, JVal.num 1⟩)]⟩
          ⟨[], [], [((0, "m"), FnRef.original 0)], 100⟩)).table (0, "m") =
        some (FnRef.wrapper wid (FnRef.original 0)
          (sitesFor [⟨0, "m", 0, "svc"⟩] (0, "m"))) ∧
      callMethod (wire [⟨0, "m", 0, "svc"⟩] ⟨2, [("svc", ⟨true, JVal.num 2⟩)]⟩
        (wire [⟨0, "m", 0, "svc"⟩] ⟨1, [("svc", ⟨true, JVal.num 1⟩)]⟩
          ⟨[], [], [((0, "m"), FnRef.original 0)], 100⟩)) (0, "m") [JVal.undef] =
        some (FnRef.original 0,
          injectArgs [⟨1, [("svc", ⟨true, JVal.num 1⟩)]⟩,
            ⟨2, [("svc", ⟨true, JVal.num 2⟩)]⟩]
            (sitesFor [⟨0, "m", 0, "svc"⟩] (0, "m")) [JVal.undef]) ∧
      getArg (injectArgs [⟨1, [("svc", ⟨true, JVal.num 1⟩)]⟩,
          ⟨2, [("svc", ⟨true, JVal.num 2⟩)]⟩]
          (sitesFor [⟨0, "m", 0, "svc"⟩] (0, "m")) [JVal.undef]) 0 =
        JVal.num 1 ∧
      (JVal.num 1 ≠ JVal.num 2 →
        getArg (injectArgs [⟨1, [("svc", ⟨true, JVal.num 1⟩)]⟩,
            ⟨2, [("svc", ⟨true, JVal.num 2⟩)]⟩]
            (sitesFor [⟨0, "m", 0, "svc"⟩] (0, "m")) [JVal.undef]) 0 ≠
          JVal.num 2) := by
  refine ⟨rfl, by decide, ?_⟩
  exact C4_fifo_precedence [⟨0, "m", 0, "svc"⟩]
    ⟨1, [("svc", ⟨true, JVal.num 1⟩)]⟩ ⟨2, [("svc", ⟨true, JVal.num 2⟩)]⟩
    ⟨[], [], [((0, "m"), FnRef.original 0)], 100⟩ (0, "m") 0 [JVal.undef]
    0 "svc" ⟨true, JVal.num 1⟩ ⟨true, JVal.num 2⟩
    rfl (by decide) (by decide) (by decide) (by decide) (by decide)
    (by decide) (by decide) (by decide)

/-! ### Claim C7 -/

/-- C7: when injection cannot be resolved — the active set is empty (for
example after `unwire`), or the site's token matches no provider-valued
property of the active container — a decorated call never fails because of
injection: the caller's original argument values, including `undefined` at
decorated positions, are forwarded unchanged to the original method, and the
method slot still holds the (sticky) wrapper.  (All paths are total: the
model, like the code, has no throwing operation on these paths.) -/
theorem C7_unresolvable_injection :
    (∀ (sites : List Site) (args : List JVal), injectArgs [] sites args = args) ∧
    (∀ (c : PContainer) (rest : List PContainer) (sites : List Site)
        (args : List JVal),
      (∀ i tok, (i, tok) ∈ buildTokens sites →
        findProviderByToken c.props tok = none) →
      injectArgs (c :: rest) sites args = args) ∧
    (∀ (c : PContainer) (st : WireSt),
      (unwire c st).table = st.table ∧ (unwire c st).wrapped = st.wrapped) ∧
    (∀ (st : WireSt) (tk : Nat × String) (args : List JVal) (wid : Nat)
        (inner : FnRef) (sites : List Site),
      lk st.table tk = some (FnRef.wrapper wid inner sites) →
      callMethod st tk args = some (inner, injectArgs st.wired sites args)) ∧
    (∀ (st : WireSt) (tk : Nat × String) (args : List JVal) (wid : Nat)
        (inner : FnRef) (sites : List Site),
      st.wired = [] →
      lk st.table tk = some (FnRef.wrapper wid inner sites) →
      callMethod st tk args = some (inner, args)) := by
  refine ⟨fun _ _ => rfl, ?_, fun _ _ => ⟨rfl, rfl⟩, ?_, ?_⟩
  · intro c rest sites args hnone
    unfold injectArgs
    simp only [List.head?]
    exact injectFold_noop c (buildTokens sites) args
      (fun q hq => hnone q.1 q.2 hq)
  · intro st tk args wid inner sites htab
    unfold callMethod
    rw [htab]
  · intro st tk args wid inner sites hw htab
    unfold callMethod
    rw [htab, hw]
    rfl

/-- Witness for C7: an unwired engine forwards `[undefined]` unchanged to
the still-wrapped method, and a container lacking the token leaves the
argument untouched. -/
theorem C7_witness :
    injectArgs [] [⟨0, "m", 0, "svc"⟩] [JVal.undef] = [JVal.undef] ∧
    injectArgs [⟨3, [("other", ⟨true, JVal.num 5⟩)]⟩] [⟨0, "m", 0, "svc"⟩]
      [JVal.undef] = [JVal.undef] ∧
    (unwire ⟨1, [("svc", ⟨true, JVal.num 1⟩)]⟩
      ⟨[⟨1, [("svc", ⟨true, JVal.num 1⟩)]⟩], [(0, "m")],
        [((0, "m"), FnRef.wrapper 100 (FnRef.original 0) [⟨0, "m", 0, "svc"⟩])],
        101⟩).table =
      [((0, "m"), FnRef.wrapper 100 (FnRef.original 0) [⟨0, "m", 0, "svc"⟩])] ∧
    callMethod
      ⟨[], [(0, "m")],
        [((0, "m"), FnRef.wrapper 100 (FnRef.original 0) [⟨0, "m", 0, "svc"⟩])],
        101⟩ (0, "m") [JVal.undef] =
      some (FnRef.original 0, [JVal.undef]) := by
  refine ⟨C7_unresolvable_injection.1 [⟨0, "m", 0, "svc"⟩] [JVal.undef], ?_, ?_, ?_⟩
  · refine C7_unresolvable_injection.2.1 ⟨3, [("other", ⟨true, JVal.num 5⟩)]⟩
      [] [⟨0, "m", 0, "svc"⟩] [JVal.undef] ?_
    intro i tok h
    have hbt : buildTokens [(⟨0, "m", 0, "svc"⟩ : Site)] = [(0, "svc")] := rfl
    rw [hbt] at h
    simp only [List.mem_singleton, Prod.mk.injEq] at h
    rw [h.2]
    rfl
  · exact (C7_unresolvable_injection.2.2.1 ⟨1, [("svc", ⟨true, JVal.num 1⟩)]⟩
      ⟨[⟨1, [("svc", ⟨true, JVal.num 1⟩)]⟩], [(0, "m")],
        [((0, "m"), FnRef.wrapper 100 (FnRef.original 0) [⟨0, "m", 0, "svc"⟩])],
        101⟩).1
  · exact C7_unresolvable_injection.2.2.2.2
      ⟨[], [(0, "m")],
        [((0, "m"), FnRef.wrapper 100 (FnRef.original 0) [⟨0, "m", 0, "svc"⟩])],
        101⟩ (0, "m") [JVal.undef] 100 (FnRef.original 0) [⟨0, "m", 0, "svc"⟩]
      rfl (by decide)

/-! ### Claim C8 -/

/-- C8: a decorated `(target, propertyKey)` pair is wrapped at most once:
the first `wire` that processes the site replaces the method with a wrapper
around the original function, and wiring a second (different or identical)
container leaves the stored function reference — and the whole method
table — unchanged. -/
theorem C8_wrap_once :
    (∀ (sites : List Site) (c : PContainer) (st : WireSt) (tk : Nat × String)
        (f : FnRef),
      tk ∈ groupKeys sites → tk ∉ st.wrapped → lk st.table tk = some f →
      ∃ wid, lk (wire sites c st).table tk =
        some (FnRef.wrapper wid f (sitesFor sites tk))) ∧
    (∀ (sites : List Site) (c c2 : PContainer) (st : WireSt),
      (wire sites c2 (wire sites c st)).table = (wire sites c st).table ∧
      (wire sites c2 (wire sites c st)).wrapped = (wire sites c st).wrapped) := by
  constructor
  · intro sites c st tk f hgrp hwr htab
    exact wireFold_install sites (groupKeys sites)
      { st with wired := addSet st.wired c } tk f (groupKeys_nodup sites)
      hgrp hwr htab
  · intro sites c c2 st
    exact wire_rewire_eq sites c c2 st

/-- Witness for C8: the first wire installs the wrapper, the second wire of
a different container leaves the table identical. -/
theorem C8_witness :
    (∃ wid,
      lk (wire [⟨0, "m", 0, "svc"⟩] ⟨1, [("svc", ⟨true, JVal.num 1⟩)]⟩
        ⟨[], [], [((0, "m"), FnRef.original 0)], 100⟩).table (0, "m") =
        some (FnRef.wrapper wid (FnRef.original 0)
          (sitesFor [⟨0, "m", 0, "svc"⟩] (0, "m")))) ∧
    (wire [⟨0, "m", 0, "svc"⟩] ⟨2, [("svc", ⟨true, JVal.num 2⟩)]⟩
      (wire [⟨0, "m", 0, "svc"⟩] ⟨1, [("svc", ⟨true, JVal.num 1⟩)]⟩
        ⟨[], [], [((0, "m"), FnRef.original 0)], 100⟩)).table =
      (wire [⟨0, "m", 0, "svc"⟩] ⟨1, [("svc", ⟨true, JVal.num 1⟩)]⟩
        ⟨[], [], [((0, "m"), FnRef.original 0)], 100⟩).table :=
  ⟨C8_wrap_once.1 [⟨0, "m", 0, "svc"⟩] ⟨1, [("svc", ⟨true, JVal.num 1⟩)]⟩
      ⟨[], [], [((0, "m"), FnRef.original 0)], 100⟩ (0, "m") (FnRef.original 0)
      (by decide) (by decide) (by decide),
   (C8_wrap_once.2 [⟨0, "m", 0, "svc"⟩] ⟨1, [("svc", ⟨true, JVal.num 1⟩)]⟩
      ⟨2, [("svc", ⟨true, JVal.num 2⟩)]⟩
      ⟨[], [], [((0, "m"), FnRef.original 0)], 100⟩).1⟩

/-! ### Claim C10 -/

/-- C10: the active-container set is ordered by first insertion: wiring an
already-wired container keeps its position (after wire c1, wire c2, wire c1
the order is still [c1, c2] and injection resolves from c1), while
unwire(c1) followed by wire(c1) moves c1 behind c2 (order [c2, c1], so
injection then resolves from c2); injection always consults the container
at the earliest position and ignores the rest of the set. -/
theorem C10_insertion_order :
    (∀ (l : List PContainer) (c : PContainer), c ∈ l → addSet l c = l) ∧
    (∀ (sites : List Site) (c : PContainer) (st : WireSt),
      (wire sites c st).wired = addSet st.wired c) ∧
    (∀ (sites : List Site) (c1 c2 : PContainer) (st0 : WireSt),
      st0.wired = [] → c1 ≠ c2 →
      (wire sites c1 (wire sites c2 (wire sites c1 st0))).wired = [c1, c2]) ∧
    (∀ (sites : List Site) (c1 c2 : PContainer) (st : WireSt),
      st.wired = [c1, c2] → c1 ≠ c2 →
      (wire sites c1 (unwire c1 st)).wired = [c2, c1]) ∧
    (∀ (c : PContainer) (rest rest2 : List PContainer) (sites : List Site)
        (args : List JVal),
      injectArgs (c :: rest) sites args = injectArgs (c :: rest2) sites args) ∧
    (∀ (c : PContainer) (rest : List PContainer) (sites : List Site)
        (args : List JVal) (i : Nat) (tok : String) (p : CProv),
      (i, tok) ∈ buildTokens sites → argMissing args i = true →
      findProviderByToken c.props tok = some p →
      getArg (injectArgs (c :: rest) sites args) i = p.result) := by
  refine ⟨?_, wire_wired, ?_, ?_, fun _ _ _ _ _ => rfl, ?_⟩
  · intro l c h
    unfold addSet
    rw [if_pos h]
  · intro sites c1 c2 st0 hw0 hne
    rw [wire_wired, wire_wired, wire_wired, hw0]
    have h1 : addSet [] c1 = [c1] := rfl
    rw [h1]
    have h2 : addSet [c1] c2 = [c1, c2] := by
      unfold addSet
      rw [if_neg (by simpa using Ne.symm hne)]
      rfl
    rw [h2]
    unfold addSet
    rw [if_pos (List.mem_cons_self c1 [c2])]
  · intro sites c1 c2 st hw hne
    rw [wire_wired]
    unfold unwire
    rw [hw]
    simp only [List.erase_cons_head]
    unfold addSet
    rw [if_neg (by simpa using hne)]
    rfl
  · intro c rest sites args i tok p hmem hmiss hfind
    unfold injectArgs
    simp only [List.head?]
    exact injectFold_hit c (buildTokens sites) args i tok p
      (buildTokens_nodup _) hmem (argMissing_iff.mp hmiss) hfind

/-- Witness for C10 at two concrete containers and one decorated site. -/
theorem C10_witness :
    addSet [⟨1, [("svc", ⟨true, JVal.num 1⟩)]⟩]
      ⟨1, [("svc", ⟨true, JVal.num 1⟩)]⟩ =
      [⟨1, [("svc", ⟨true, JVal.num 1⟩)]⟩] ∧
    (wire [⟨0, "m", 0, "svc"⟩] ⟨1, [("svc", ⟨true, JVal.num 1⟩)]⟩
      (wire [⟨0, "m", 0, "svc"⟩] ⟨2, [("svc", ⟨true, JVal.num 2⟩)]⟩
        (wire [⟨0, "m", 0, "svc"⟩] ⟨1, [("svc", ⟨true, JVal.num 1⟩)]⟩
          ⟨[], [], [((0, "m"), FnRef.original 0)], 100⟩))).wired =
      [⟨1, [("svc", ⟨true, JVal.num 1⟩)]⟩, ⟨2, [("svc", ⟨true, JVal.num 2⟩)]⟩] ∧
    (wire [⟨0, "m", 0, "svc"⟩] ⟨1, [("svc", ⟨true, JVal.num 1⟩)]⟩
      (unwire ⟨1, [("svc", ⟨true, JVal.num 1⟩)]⟩
        ⟨[⟨1, [("svc", ⟨true, JVal.num 1⟩)]⟩, ⟨2, [("svc", ⟨true, JVal.num 2⟩)]⟩],
          [(0, "m")], [((0, "m"), FnRef.original 0)], 100⟩)).wired =
      [⟨2, [("svc", ⟨true, JVal.num 2⟩)]⟩, ⟨1, [("svc", ⟨true, JVal.num 1⟩)]⟩] ∧
    getArg (injectArgs [⟨2, [("svc", ⟨true, JVal.num 2⟩)]⟩,
        ⟨1, [("svc", ⟨true, JVal.num 1⟩)]⟩] [⟨0, "m", 0, "svc"⟩] []) 0 =
      JVal.num 2 := by
  refine ⟨?_, ?_, ?_, ?_⟩
  · exact C10_insertion_order.1 [⟨1, [("svc", ⟨true, JVal.num 1⟩)]⟩]
      ⟨1, [("svc", ⟨true, JVal.num 1⟩)]⟩ (by decide)
  · exact C10_insertion_order.2.2.1 [⟨0, "m", 0, "svc"⟩]
      ⟨1, [("svc", ⟨true, JVal.num 1⟩)]⟩ ⟨2, [("svc", ⟨true, JVal.num 2⟩)]⟩
      ⟨[], [], [((0, "m"), FnRef.original 0)], 100⟩ rfl (by decide)
  · exact C10_insertion_order.2.2.2.1 [⟨0, "m", 0, "svc"⟩]
      ⟨1, [("svc", ⟨true, JVal.num 1⟩)]⟩ ⟨2, [("svc", ⟨true, JVal.num 2⟩)]⟩
      ⟨[⟨1, [("svc", ⟨true, JVal.num 1⟩)]⟩, ⟨2, [("svc", ⟨true, JVal.num 2⟩)]⟩],
        [(0, "m")], [((0, "m"), FnRef.original 0)], 100⟩ rfl (by decide)
  · exact C10_insertion_order.2.2.2.2.2 ⟨2, [("svc", ⟨true, JVal.num 2⟩)]⟩
      [⟨1, [("svc", ⟨true, JVal.num 1⟩)]⟩] [⟨0, "m", 0, "svc"⟩] [] 0 "svc"
      ⟨true, JVal.num 2⟩ (by decide) (by decide) (by decide)

end DI
